import Mathlib

/-!
Verification development for the Message Expansion Engine of the
faktenforum/agents repository.

The engine (`formatAgentMessages`) converts a flat conversation payload into a
normalized message sequence while redistributing per-entry token budgets.  The
implementation module itself is not present in the source tree (only its test
suite is), so the engine is modelled from the specification, with every
behavioural choice cross-checked against the test suite in
`src/messages/formatAgentMessages.test.ts`.  The content round-tripper
`convertMessagesToContent` is embedded directly from `src/messages/core.ts`.
-/

/-! ## A small JSON model

The engine parses tool-call arguments and tool-search outputs with
`JSON.parse` and serializes content when computing token weights.  Numbers are
kept as their source lexemes, which avoids floating point while preserving
round-tripping of the documents the engine actually sees. -/

inductive Json where
  | null : Json
  | bool (b : Bool) : Json
  | num (lexeme : String) : Json
  | str (s : String) : Json
  | arr (elems : List Json) : Json
  | obj (fields : List (String × Json)) : Json

def chQuote : Char := Char.ofNat 34
def chBackslash : Char := Char.ofNat 92
def chSlash : Char := Char.ofNat 47
def chLBrace : Char := Char.ofNat 123
def chRBrace : Char := Char.ofNat 125
def chLBrack : Char := Char.ofNat 91
def chRBrack : Char := Char.ofNat 93
def chComma : Char := Char.ofNat 44
def chColon : Char := Char.ofNat 58
def chMinus : Char := Char.ofNat 45
def chPlus : Char := Char.ofNat 43
def chDot : Char := Char.ofNat 46
def chNewline : Char := Char.ofNat 10
def chTab : Char := Char.ofNat 9
def chCR : Char := Char.ofNat 13

def isWsChar (c : Char) : Bool :=
  c == Char.ofNat 32 || c == chNewline || c == chTab || c == chCR

def skipWs : List Char → List Char
  | [] => []
  | c :: cs => if isWsChar c then skipWs cs else c :: cs

def escCharOf (c : Char) : Option Char :=
  if c == chQuote then some chQuote
  else if c == chBackslash then some chBackslash
  else if c == chSlash then some chSlash
  else if c == 'n' then some chNewline
  else if c == 't' then some chTab
  else if c == 'r' then some chCR
  else if c == 'b' then some (Char.ofNat 8)
  else if c == 'f' then some (Char.ofNat 12)
  else none

def hexVal (c : Char) : Option Nat :=
  let n := c.toNat
  if 48 ≤ n && n ≤ 57 then some (n - 48)
  else if 97 ≤ n && n ≤ 102 then some (n - 87)
  else if 65 ≤ n && n ≤ 70 then some (n - 55)
  else none

/-- Body of a JSON string literal after the opening quote: returns the decoded
string plus the remaining characters after the closing quote. -/
def parseStrBody (acc : List Char) : List Char → Option (String × List Char)
  | [] => none
  | c :: rest =>
    if c == chQuote then some (String.mk acc.reverse, rest)
    else if c == chBackslash then
      match rest with
      | [] => none
      | e :: rest2 =>
        if e == 'u' then
          match rest2 with
          | h1 :: h2 :: h3 :: h4 :: rest3 =>
            match hexVal h1, hexVal h2, hexVal h3, hexVal h4 with
            | some a, some b, some c2, some d =>
              parseStrBody (Char.ofNat (((a * 16 + b) * 16 + c2) * 16 + d) :: acc) rest3
            | _, _, _, _ => none
          | _ => none
        else
          match escCharOf e with
          | some d => parseStrBody (d :: acc) rest2
          | none => none
    else parseStrBody (c :: acc) rest

def takeDigits : List Char → List Char × List Char
  | [] => ([], [])
  | c :: cs =>
    if c.isDigit then
      let p := takeDigits cs
      (c :: p.1, p.2)
    else ([], c :: cs)

def parseFracPart : List Char → Option (List Char × List Char)
  | [] => some ([], [])
  | c :: rest =>
    if c == chDot then
      let p := takeDigits rest
      if p.1.isEmpty then none else some (c :: p.1, p.2)
    else some ([], c :: rest)

def parseExpPart : List Char → Option (List Char × List Char)
  | [] => some ([], [])
  | c :: rest =>
    if c == 'e' || c == 'E' then
      let sg : List Char × List Char :=
        match rest with
        | s :: r2 => if s == chPlus || s == chMinus then ([s], r2) else ([], rest)
        | [] => ([], [])
      let p := takeDigits sg.2
      if p.1.isEmpty then none else some (c :: (sg.1 ++ p.1), p.2)
    else some ([], c :: rest)

def parseNumLex (cs : List Char) : Option (String × List Char) :=
  let mn : List Char × List Char :=
    match cs with
    | c :: rest => if c == chMinus then ([c], rest) else ([], cs)
    | [] => ([], [])
  let d := takeDigits mn.2
  if d.1.isEmpty then none
  else
    match parseFracPart d.2 with
    | none => none
    | some (fr, cs3) =>
      match parseExpPart cs3 with
      | none => none
      | some (ex, cs4) => some (String.mk (mn.1 ++ d.1 ++ fr ++ ex), cs4)

def dropLit : List Char → List Char → Option (List Char)
  | [], cs => some cs
  | l :: ls, c :: cs => if c == l then dropLit ls cs else none
  | _ :: _, [] => none

mutual

def parseVal : Nat → List Char → Option (Json × List Char)
  | 0, _ => none
  | fuel + 1, cs0 =>
    let cs := skipWs cs0
    match cs with
    | [] => none
    | c :: rest =>
      if c == chQuote then
        match parseStrBody [] rest with
        | some (s, r) => some (Json.str s, r)
        | none => none
      else if c == chLBrace then
        match skipWs rest with
        | d :: r2 => if d == chRBrace then some (Json.obj [], r2) else parseObjItems fuel [] (skipWs rest)
        | [] => none
      else if c == chLBrack then
        match skipWs rest with
        | d :: r2 => if d == chRBrack then some (Json.arr [], r2) else parseArrItems fuel [] (skipWs rest)
        | [] => none
      else if c == 'n' then (dropLit ['n', 'u', 'l', 'l'] cs).map (fun r => (Json.null, r))
      else if c == 't' then (dropLit ['t', 'r', 'u', 'e'] cs).map (fun r => (Json.bool true, r))
      else if c == 'f' then (dropLit ['f', 'a', 'l', 's', 'e'] cs).map (fun r => (Json.bool false, r))
      else
        match parseNumLex cs with
        | some (s, r) => some (Json.num s, r)
        | none => none

def parseArrItems : Nat → List Json → List Char → Option (Json × List Char)
  | 0, _, _ => none
  | fuel + 1, acc, cs =>
    match parseVal fuel cs with
    | none => none
    | some (v, r) =>
      match skipWs r with
      | c :: r2 =>
        if c == chComma then parseArrItems fuel (v :: acc) r2
        else if c == chRBrack then some (Json.arr (v :: acc).reverse, r2)
        else none
      | [] => none

def parseObjItems : Nat → List (String × Json) → List Char → Option (Json × List Char)
  | 0, _, _ => none
  | fuel + 1, acc, cs =>
    match skipWs cs with
    | c :: rest =>
      if c == chQuote then
        match parseStrBody [] rest with
        | some (k, r) =>
          match skipWs r with
          | d :: r2 =>
            if d == chColon then
              match parseVal fuel r2 with
              | some (v, r3) =>
                match skipWs r3 with
                | e :: r5 =>
                  if e == chComma then parseObjItems fuel ((k, v) :: acc) r5
                  else if e == chRBrace then some (Json.obj ((k, v) :: acc).reverse, r5)
                  else none
                | [] => none
              | none => none
            else none
          | [] => none
        | none => none
      else none
    | [] => none

end

/-- The `JSON.parse` of the engine: succeeds iff the whole string is one JSON
document (up to surrounding whitespace). -/
def parseJson (s : String) : Option Json :=
  match parseVal (s.length + 1) s.data with
  | some (v, r) => if (skipWs r).isEmpty then some v else none
  | none => none

def escOut (c : Char) : List Char :=
  if c == chQuote then [chBackslash, chQuote]
  else if c == chBackslash then [chBackslash, chBackslash]
  else if c == chNewline then [chBackslash, 'n']
  else if c == chTab then [chBackslash, 't']
  else if c == chCR then [chBackslash, 'r']
  else [c]

def quoteStr (s : String) : String :=
  String.mk (chQuote :: (s.data.map escOut).flatten ++ [chQuote])

/-- Compact serialization, mirroring `JSON.stringify`. -/
def stringify : Json → String
  | .null => "null"
  | .bool b => if b then "true" else "false"
  | .num s => s
  | .str s => quoteStr s
  | .arr xs =>
    "[" ++ String.intercalate "," (xs.attach.map (fun x => stringify x.1)) ++ "]"
  | .obj fs =>
    "\x7b" ++
      String.intercalate ","
        (fs.attach.map (fun f => quoteStr f.1.1 ++ ":" ++ stringify f.1.2)) ++
      "\x7d"
termination_by j => sizeOf j
decreasing_by
  · have h1 := List.sizeOf_lt_of_mem x.2
    simp only [Json.arr.sizeOf_spec]
    omega
  · have h1 := List.sizeOf_lt_of_mem f.2
    have h2 : sizeOf f.1.2 < sizeOf f.1 := by
      obtain ⟨a, b⟩ := f.1
      simp only [Prod.mk.sizeOf_spec]
      omega
    simp only [Json.obj.sizeOf_spec]
    omega

def lookupField : List (String × Json) → String → Option Json
  | [], _ => none
  | (k, v) :: rest, key => if k = key then some v else lookupField rest key

/-! ## Data model of the Message Expansion Engine

Modelled from the spec: the implementation module of `formatAgentMessages` is
not present in the source tree (only its test suite is), so the payload shapes
of spec section 3 are embedded here.  `RawToolCall.name` uses `""` for a
missing/falsy name; `output = none` stands for a `null`/`undefined` output. -/

structure RawToolCall where
  id : String
  name : String
  args : String
  toolOut : Option String
deriving DecidableEq

inductive ContentPart where
  | text (t : String) (ids : Option (List String))
  | think (t : String)
  | error (e : String)
  | toolCall (tc : Option RawToolCall)
  | agentUpdate
  | other
deriving DecidableEq

inductive Role where
  | user
  | assistant
  | system
  | tool
deriving DecidableEq

inductive EntryContent where
  | str (s : String)
  | parts (ps : List ContentPart)
deriving DecidableEq

structure PayloadEntry where
  role : Role
  content : EntryContent
deriving DecidableEq

structure ValidToolCall where
  id : String
  name : String
  args : Json

inductive MsgContent where
  | str (s : String)
  | parts (ps : List ContentPart)

inductive OutputMessage where
  | human (content : MsgContent)
  | system (content : MsgContent)
  | ai (content : MsgContent) (tool_calls : List ValidToolCall)
  | tool (tool_call_id : String) (name : String) (content : String)

/-- The tool-validity tracker: `none` is the unrestricted tracker (no
caller-supplied set), `some l` the current allow-list. -/
abbrev ToolSet := Option (List String)

/-- A kept call is accepted iff the tracker is unrestricted or its name is in
the validity set (spec section 4.2). -/
def acceptedName (S : ToolSet) (n : String) : Bool :=
  match S with
  | none => true
  | some l => l.contains n

/-- Modelled from the spec: a raw tool call is degenerate (skipped entirely)
iff its name is falsy and its output is falsy (`null`, `undefined`, `""`). -/
def degenerate (tc : RawToolCall) : Bool :=
  tc.name = "" && (tc.toolOut = none || tc.toolOut = some "")

/-- Tool-search discovery: the accepted call output is parsed as JSON; every
`name` string field inside a `tools` array of objects is collected. -/
def extractToolNames (out : String) : List String :=
  match parseJson out with
  | some (Json.obj fields) =>
    match lookupField fields "tools" with
    | some (Json.arr xs) =>
      xs.filterMap fun j =>
        match j with
        | Json.obj fs =>
          match lookupField fs "name" with
          | some (Json.str n) => some n
          | _ => none
        | _ => none
    | _ => []
  | _ => []

def discover (S : ToolSet) (out : String) : ToolSet :=
  match S with
  | none => none
  | some l => some (l ++ extractToolNames out)

/-- Args are parsed as JSON; on failure the fallback wrapper object
`\x7b input: <raw> \x7d` is substituted (spec section 4.2). -/
def parseArgsJson (s : String) : Json :=
  match parseJson s with
  | some j => j
  | none => Json.obj [("input", Json.str s)]

def validOf (tc : RawToolCall) : ValidToolCall :=
  { id := tc.id, name := tc.name, args := parseArgsJson tc.args }

def outStr (tc : RawToolCall) : String := tc.toolOut.getD ""

/-- Modelled from the spec: rejected calls have their name and output
serialized and appended as inline narrative text on the enclosing assistant
message. -/
def inlineRejected (tc : RawToolCall) : String :=
  "\n" ++ tc.name ++ ": " ++ outStr tc

/-! ## Entry Scanner and Segmenter/Healer (spec sections 4.1 to 4.3) -/

inductive OpenSeg where
  | closed
  | narrative (ts : List ContentPart)
  | toolSeg (content : String) (calls : List ValidToolCall) (pending : List OutputMessage)

structure ScanSt where
  msgs : List OutputMessage
  seg : OpenSeg
  tools : ToolSet

def isThinkPart : ContentPart → Bool
  | .think _ => true
  | _ => false

/-- Join the texts of surviving TEXT parts with a newline, skipping empty
strings (the THINK-triggered collapse form). -/
def joinTexts (ts : List ContentPart) : String :=
  String.intercalate "\n"
    ((ts.filterMap fun p => match p with
        | .text t _ => some t
        | _ => none).filter (fun s => s ≠ ""))

/-- Emit a narrative-only segment: one plain-string assistant message when the
original entry contained a THINK part, otherwise the literal list of surviving
TEXT parts; an empty run emits nothing. -/
def flushNarrative (hasThink : Bool) (ts : List ContentPart) : List OutputMessage :=
  match ts with
  | [] => []
  | _ =>
    if hasThink then [OutputMessage.ai (.str (joinTexts ts)) []]
    else [OutputMessage.ai (.parts ts) []]

def flushSeg (hasThink : Bool) : OpenSeg → List OutputMessage
  | .closed => []
  | .narrative ts => flushNarrative hasThink ts
  | .toolSeg c calls pending => OutputMessage.ai (.str c) calls :: pending

/-- One scanner transition (spec sections 4.1 to 4.3): classify a content
part, update the open segment, heal orphaned tool calls, track discovery. -/
def stepPart (hasThink : Bool) (st : ScanSt) : ContentPart → ScanSt
  | .text t ids =>
    match ids with
    | some _ =>
      { msgs := st.msgs ++ flushSeg hasThink st.seg
        seg := .toolSeg t [] []
        tools := st.tools }
    | none =>
      match st.seg with
      | .narrative ts => { st with seg := .narrative (ts ++ [.text t none]) }
      | .closed => { st with seg := .narrative [.text t none] }
      | .toolSeg c calls pending =>
        { msgs := st.msgs ++ flushSeg hasThink (.toolSeg c calls pending)
          seg := .narrative [.text t none]
          tools := st.tools }
  | .toolCall none => st
  | .toolCall (some tc) =>
    if degenerate tc then st
    else if acceptedName st.tools tc.name then
      let v := validOf tc
      let tm := OutputMessage.tool tc.id tc.name (outStr tc)
      let tools' := if tc.name = "tool_search" then discover st.tools (outStr tc) else st.tools
      match st.seg with
      | .toolSeg c calls pending =>
        { msgs := st.msgs, seg := .toolSeg c (calls ++ [v]) (pending ++ [tm]), tools := tools' }
      | .narrative ts =>
        { msgs := st.msgs ++ flushNarrative hasThink ts ++ [OutputMessage.ai (.str "") [v], tm]
          seg := .closed
          tools := tools' }
      | .closed =>
        { msgs := st.msgs ++ [OutputMessage.ai (.str "") [v], tm]
          seg := .closed
          tools := tools' }
    else
      match st.seg with
      | .toolSeg c calls pending => { st with seg := .toolSeg (c ++ inlineRejected tc) calls pending }
      | .narrative ts => { st with seg := .narrative (ts ++ [.text (inlineRejected tc) none]) }
      | .closed => { st with seg := .narrative [.text (inlineRejected tc) none] }
  | .think _ => st
  | .error _ => st
  | .agentUpdate => st
  | .other => st

def scanParts (hasThink : Bool) (st : ScanSt) : List ContentPart → ScanSt
  | [] => st
  | p :: ps => scanParts hasThink (stepPart hasThink st p) ps

/-- Scan an assistant entry: the THINK-collapse flag is computed once from the
original parts, the scanner runs left to right, the open segment is flushed at
the end. -/
def processAssistant (parts : List ContentPart) (S : ToolSet) : List OutputMessage × ToolSet :=
  let hasThink := parts.any isThinkPart
  let fin := scanParts hasThink { msgs := [], seg := .closed, tools := S } parts
  (fin.msgs ++ flushSeg hasThink fin.seg, fin.tools)

/-- Surviving TEXT parts of a non-assistant entry. -/
def survivingTexts (parts : List ContentPart) : List ContentPart :=
  parts.filter fun p => match p with
    | .text _ _ => true
    | _ => false

/-- Modelled from the spec: non-assistant entries carry no tool calls in any
test, so they emit at most one message built from their surviving TEXT parts
under the same collapse rule. -/
def processPlain (mk : MsgContent → OutputMessage) (parts : List ContentPart) :
    List OutputMessage :=
  let hasThink := parts.any isThinkPart
  match survivingTexts parts with
  | [] => []
  | ts =>
    if hasThink then [mk (.str (joinTexts ts))]
    else [mk (.parts ts)]

/-- A bare string content becomes a single TEXT part (spec section 4.1). -/
def normalizeContent : EntryContent → List ContentPart
  | .str s => [.text s none]
  | .parts ps => ps

def processEntry (e : PayloadEntry) (S : ToolSet) : List OutputMessage × ToolSet :=
  let parts := normalizeContent e.content
  match e.role with
  | .assistant => processAssistant parts S
  | .system => (processPlain OutputMessage.system parts, S)
  | .user => (processPlain OutputMessage.human parts, S)
  | .tool => (processPlain OutputMessage.human parts, S)

/-! ## Token Redistributor (spec section 4.4)

Largest-remainder allocation: each message gets `floor(count * weight / W)`,
then the remainder is handed out one unit at a time to the messages with the
largest fractional remainder (`count * weight mod W`), ties broken by message
order. -/

def unchosenIdxs (ch : List Bool) : List Nat :=
  (List.range ch.length).filter (fun i => ch.getD i true = false)

/-- Index with the largest remainder among candidates; strict comparison keeps
the earliest index on ties (ties broken by message order). -/
def argmaxRem (rems : List Nat) : List Nat → Option Nat
  | [] => none
  | a :: rest =>
    some (rest.foldl (fun b i => if rems.getD i 0 > rems.getD b 0 then i else b) a)

def markBest (rems : List Nat) (ch : List Bool) : List Bool :=
  match argmaxRem rems (unchosenIdxs ch) with
  | none => ch
  | some i => ch.set i true

def pickTopAux (rems : List Nat) : Nat → List Bool → List Bool
  | 0, ch => ch
  | r + 1, ch => pickTopAux rems r (markBest rems ch)

def pickTop (rems : List Nat) (r : Nat) : List Bool :=
  pickTopAux rems r (List.replicate rems.length false)

def addExtras : List Nat → List Bool → List Nat
  | [], _ => []
  | b :: bs, [] => b :: bs
  | b :: bs, c :: cs => (b + if c then 1 else 0) :: addExtras bs cs

/-- Core largest-remainder split of `c` over positive total weight. -/
def largestRemainder (c : Nat) (ws : List Nat) : List Nat :=
  let w := ws.sum
  let base := ws.map (fun x => c * x / w)
  let rems := ws.map (fun x => c * x % w)
  let r := c - base.sum
  addExtras base (pickTop rems r)

/-- Split an entry count over the output messages: a single message receives
the count unchanged; all-zero weights fall back to an even split using the
same remainder technique. -/
def redistribute (c : Nat) (ws : List Nat) : List Nat :=
  match ws with
  | [] => []
  | [_] => [c]
  | _ =>
    if ws.sum = 0 then largestRemainder c (List.replicate ws.length 1)
    else largestRemainder c ws

/-! ## Token weights (spec section 4.4) -/

def partJson : ContentPart → Json
  | .text t _ => Json.obj [("type", Json.str "text"), ("text", Json.str t)]
  | .think t => Json.obj [("type", Json.str "think"), ("think", Json.str t)]
  | .error e => Json.obj [("type", Json.str "error"), ("error", Json.str e)]
  | _ => Json.null

def serializedLen : MsgContent → Nat
  | .str s => s.length
  | .parts ps => (stringify (Json.arr (ps.map partJson))).length

/-- Weight of one output message: serialized content length, plus serialized
tool-call argument lengths, plus tool-result content length. -/
def msgWeight : OutputMessage → Nat
  | .human c => serializedLen c
  | .system c => serializedLen c
  | .ai c tcs => serializedLen c + (tcs.map (fun v => (stringify v.args).length)).sum
  | .tool _ _ content => content.length

/-! ## The full engine (spec section 6 call contract) -/

/-- Sparse input token map: a present key with value `none` models an
`undefined` entry (treated as 0). -/
abbrev TokenMap := List (Nat × Option Nat)

def lookupTok : TokenMap → Nat → Option (Option Nat)
  | [], _ => none
  | (k, v) :: rest, i => if k = i then some v else lookupTok rest i

/-- Input value at an index: absent and `undefined` entries count as 0. -/
def valAt (m : TokenMap) (i : Nat) : Nat :=
  match lookupTok m i with
  | some (some v) => v
  | _ => 0

def zipFrom (pos : Nat) : List Nat → List (Nat × Nat)
  | [] => []
  | a :: as => (pos, a) :: zipFrom (pos + 1) as

/-- Token entries produced for one original entry: an index absent from the
input map is skipped in the output; an entry that produced no messages
contributes nothing. -/
def tokenEntriesFor (m : TokenMap) (i pos : Nat) (msgs : List OutputMessage) :
    List (Nat × Nat) :=
  match lookupTok m i with
  | none => []
  | some v =>
    match msgs with
    | [] => []
    | _ => zipFrom pos (redistribute (v.getD 0) (msgs.map msgWeight))

def goEngine (m? : Option TokenMap) :
    List PayloadEntry → Nat → Nat → ToolSet →
      List OutputMessage × List (Nat × Nat) × ToolSet
  | [], _, _, S => ([], [], S)
  | e :: rest, i, pos, S =>
    let r := processEntry e S
    let toks := match m? with
      | none => []
      | some m => tokenEntriesFor m i pos r.1
    let tail := goEngine m? rest (i + 1) (pos + r.1.length) r.2
    (r.1 ++ tail.1, toks ++ tail.2.1, tail.2.2)

structure FormatResult where
  messages : List OutputMessage
  indexTokenCountMap : Option (List (Nat × Nat))

/-- The engine entry point: scan every payload entry in order, threading the
tool-validity tracker, and redistribute the per-entry token budget; the result
map is present iff one was supplied. -/
def formatAgentMessages (payload : List PayloadEntry) (m? : Option TokenMap)
    (allowedTools : ToolSet) : FormatResult :=
  let r := goEngine m? payload 0 0 allowedTools
  { messages := r.1, indexTokenCountMap := m?.map (fun _ => r.2.1) }

/-- Tool-validity tracker state after a whole payload. -/
def toolsAfter : List PayloadEntry → ToolSet → ToolSet
  | [], S => S
  | e :: rest, S => toolsAfter rest (processEntry e S).2

/-! ## `convertMessagesToContent` (src/messages/core.ts, lines 272-349) -/

structure CToolCall where
  id : Option String
  name : String
  args : Json

/-- One content part of the round-tripper output; `tcBase`/`tcOut` are
populated only on `tool_call` parts (the `Object.assign` of the stored call
with the tool output). -/
structure OPart where
  ptype : String
  ptext : String
  ids : Option (List String)
  tcBase : Option CToolCall
  tcOut : Option String

inductive BContent where
  | str (s : String)
  | arr (items : List (Option OPart))

/-- Input messages of `convertMessagesToContent`; `content = none` models an
`undefined` content (`lc_kwargs.content ?? content` collapsed to one field).
Tool message content is modelled as its string form. -/
inductive BMsg where
  | ai (content : Option BContent) (tool_calls : List CToolCall)
  | tool (tool_call_id : String) (content : String)
  | human (content : Option BContent)
  | system (content : Option BContent)

structure ConvSt where
  out : List OPart
  anchorIdx : Option Nat
  tcMap : List (String × CToolCall)

/-- The `addContentPart` of core.ts: a string becomes a text part, an array is
appended after dropping null items and `tool_use` parts, `undefined` adds
nothing. -/
def addContentPart (out : List OPart) : Option BContent → List OPart
  | none => out
  | some (.str s) => out ++ [⟨"text", s, none, none, none⟩]
  | some (.arr items) =>
    out ++ (items.filterMap id).filter (fun p => p.ptype ≠ "tool_use")

def lookupTC : List (String × CToolCall) → String → Option CToolCall
  | [], _ => none
  | (k, v) :: rest, i => if k = i then some v else lookupTC rest i

/-- Append the tool message id to the `tool_call_ids` of the part at index
`k` (`contentPart.tool_call_ids = (contentPart.tool_call_ids || []).push(id)`). -/
def appendIdAt (l : List OPart) (k : Nat) (id : String) : List OPart :=
  match l.get? k with
  | none => l
  | some p => l.set k { p with ids := some (p.ids.getD [] ++ [id]) }

/-- The `tool_call` content part pushed for a tool message. -/
def toolCallPart (m : List (String × CToolCall)) (id content : String) : OPart :=
  ⟨"tool_call", "", none, lookupTC m id, some content⟩

/-- One loop iteration of `convertMessagesToContent` (core.ts lines 301-346). -/
def convStep (st : ConvSt) : BMsg → ConvSt
  | .ai content tcs =>
    if tcs.length > 0 then
      let m' := tcs.foldl
        (fun m tc =>
          match tc.id with
          | some i => if i = "" then m else (i, tc) :: m
          | none => m)
        st.tcMap
      let out' := addContentPart st.out content
      { out := out'
        anchorIdx := if out'.length = 0 then none else some (out'.length - 1)
        tcMap := m' }
    else { st with out := addContentPart st.out content }
  | .tool id content =>
    if id = "" then st
    else
      let p : List OPart × Nat :=
        match st.anchorIdx with
        | none => (st.out ++ [⟨"text", "", none, none, none⟩], st.out.length)
        | some k => (st.out, k)
      let out1 := p.1 ++ [toolCallPart st.tcMap id content]
      { out := appendIdAt out1 p.2 id, anchorIdx := some p.2, tcMap := st.tcMap }
  | .human _ => st
  | .system _ => st

def convertMessagesToContent (msgs : List BMsg) : List OPart :=
  (msgs.foldl convStep { out := [], anchorIdx := none, tcMap := [] }).out

/-! ## Lemmas about the remainder distribution -/

/-! ## Auxiliary predicates and measures used by the theorems -/

/-- Parts that provably leave the scanner state untouched: reasoning, errors,
agent updates, unrecognized shapes and malformed tool-call parts. -/
def droppablePart : ContentPart → Bool
  | .think _ => true
  | .error _ => true
  | .agentUpdate => true
  | .other => true
  | .toolCall none => true
  | _ => false

/-- A name is accepted by a tracker state. -/
def memTS (n : String) (S : ToolSet) : Prop := acceptedName S n = true

def isToolMsg : OutputMessage → Bool
  | .tool _ _ _ => true
  | _ => false

def toolMsgCount (l : List OutputMessage) : Nat := (l.filter isToolMsg).length

def aiCalls : OutputMessage → Nat
  | .ai _ tcs => tcs.length
  | _ => 0

def aiCallCount (l : List OutputMessage) : Nat := (l.map aiCalls).sum

def segToolCount : OpenSeg → Nat
  | .toolSeg _ _ pending => toolMsgCount pending
  | _ => 0

def segCallCount : OpenSeg → Nat
  | .toolSeg _ calls pending => calls.length + aiCallCount pending
  | _ => 0

/-- One for a kept (non-degenerate) raw tool call, zero for everything else. -/
def partKept : ContentPart → Nat
  | .toolCall (some tc) => if degenerate tc then 0 else 1
  | _ => 0

def keptCount (parts : List ContentPart) : Nat := (parts.map partKept).sum

/-- Parts allowed in a purely narrative entry: untagged TEXT plus the dropped
kinds. -/
def narrOnly : ContentPart → Bool
  | .text _ none => true
  | .think _ => true
  | .error _ => true
  | .agentUpdate => true
  | .other => true
  | .toolCall none => true
  | _ => false

/-- The surviving untagged TEXT parts of a narrative entry. -/
def narrTexts (l : List ContentPart) : List ContentPart :=
  l.filterMap fun p =>
    match p with
    | .text t none => some (.text t none)
    | _ => none

def segOfAcc : List ContentPart → OpenSeg
  | [] => .closed
  | t :: ts => .narrative (t :: ts)

def outMapSum (l : List (Nat × Nat)) : Nat := (l.map Prod.snd).sum

/-- Per-entry production flags: whether each payload entry yields at least one
output message, threading the tracker exactly as the engine does. -/
def prodFlags : List PayloadEntry → ToolSet → List Bool
  | [], _ => []
  | e :: rest, S => (!(processEntry e S).1.isEmpty) :: prodFlags rest (processEntry e S).2

/-- Input-map mass of the entries flagged as producing output. -/
def keptInputSum (m : TokenMap) : Nat → List Bool → Nat
  | _, [] => 0
  | i, f :: fs => (if f then valAt m i else 0) + keptInputSum m (i + 1) fs

/-- The sum claimed by the specification: all input values at indices below
the payload length. -/
def inputSumBelow (m : TokenMap) (n : Nat) : Nat :=
  ((List.range n).map (valAt m)).sum

/-- Parts of a fully filtered entry: THINK, ERROR or AGENT_UPDATE. -/
def droppableC8 : ContentPart → Bool
  | .think _ => true
  | .error _ => true
  | .agentUpdate => true
  | _ => false

theorem addExtras_length (base : List Nat) (ch : List Bool) :
    (addExtras base ch).length = base.length := by
  induction base generalizing ch with
  | nil => cases ch <;> rfl
  | cons b bs ih =>
    cases ch with
    | nil => rfl
    | cons c cs => simp [addExtras, ih]

theorem addExtras_sum (base : List Nat) (ch : List Bool)
    (hlen : ch.length = base.length) :
    (addExtras base ch).sum = base.sum + ch.count true := by
  induction base generalizing ch with
  | nil =>
    cases ch with
    | nil => simp [addExtras]
    | cons c cs => simp at hlen
  | cons b bs ih =>
    cases ch with
    | nil => simp at hlen
    | cons c cs =>
      simp only [List.length_cons, Nat.succ.injEq] at hlen
      cases c <;> simp [addExtras, ih cs hlen, List.count_cons] <;> omega

theorem addExtras_getD (base : List Nat) (ch : List Bool) (i : Nat)
    (hlen : ch.length = base.length) :
    (addExtras base ch).getD i 0 =
      base.getD i 0 + (if (i < ch.length ∧ ch.getD i false) then 1 else 0) := by
  induction base generalizing ch i with
  | nil =>
    cases ch with
    | nil => simp [addExtras, List.getD]
    | cons c cs => simp at hlen
  | cons b bs ih =>
    cases ch with
    | nil => simp at hlen
    | cons c cs =>
      simp only [List.length_cons, Nat.succ.injEq] at hlen
      cases i with
      | zero =>
        simp only [addExtras, List.getD_cons_zero, List.length_cons]
        cases c <;> simp
      | succ j =>
        simp only [addExtras, List.getD_cons_succ, List.length_cons, ih cs j hlen]
        simp [Nat.add_lt_add_iff_right]

theorem markBest_length (rems : List Nat) (ch : List Bool) :
    (markBest rems ch).length = ch.length := by
  unfold markBest
  cases argmaxRem rems (unchosenIdxs ch) with
  | none => rfl
  | some i => simp

theorem pickTopAux_length (rems : List Nat) (r : Nat) (ch : List Bool) :
    (pickTopAux rems r ch).length = ch.length := by
  induction r generalizing ch with
  | zero => rfl
  | succ n ih => simp [pickTopAux, ih, markBest_length]

theorem pickTop_length (rems : List Nat) (r : Nat) :
    (pickTop rems r).length = rems.length := by
  simp [pickTop, pickTopAux_length]

theorem mem_unchosenIdxs (ch : List Bool) (i : Nat) :
    i ∈ unchosenIdxs ch ↔ i < ch.length ∧ ch.getD i true = false := by
  simp [unchosenIdxs, List.mem_filter, List.mem_range]

theorem foldl_select_mem (rems : List Nat) (l : List Nat) (b : Nat) :
    l.foldl (fun b i => if rems.getD i 0 > rems.getD b 0 then i else b) b = b ∨
      l.foldl (fun b i => if rems.getD i 0 > rems.getD b 0 then i else b) b ∈ l := by
  induction l generalizing b with
  | nil => left; rfl
  | cons c cs ih =>
    simp only [List.foldl_cons]
    rcases ih (if rems.getD c 0 > rems.getD b 0 then c else b) with h | h
    · by_cases hc : rems.getD c 0 > rems.getD b 0
      · right
        rw [h, if_pos hc]
        exact List.mem_cons_self c cs
      · left
        rw [h, if_neg hc]
    · right; exact List.mem_cons_of_mem _ h

theorem argmaxRem_mem (rems : List Nat) (l : List Nat) (m : Nat)
    (h : argmaxRem rems l = some m) : m ∈ l := by
  cases l with
  | nil => simp [argmaxRem] at h
  | cons a rest =>
    simp only [argmaxRem, Option.some.injEq] at h
    rcases foldl_select_mem rems rest a with h2 | h2
    · rw [← h]; rw [h2]; exact List.mem_cons_self a rest
    · rw [← h]; exact List.mem_cons_of_mem _ h2

theorem exists_false_of_count_lt (ch : List Bool) (h : ch.count true < ch.length) :
    ∃ i, i < ch.length ∧ ch.getD i true = false := by
  induction ch with
  | nil => simp at h
  | cons c cs ih =>
    cases c with
    | false => exact ⟨0, by simp, by simp⟩
    | true =>
      simp only [List.count_cons, List.length_cons] at h
      have h2 : cs.count true < cs.length := by simpa using h
      obtain ⟨i, hi, hv⟩ := ih h2
      exact ⟨i + 1, by simpa using hi, by simpa using hv⟩

theorem count_set_true (ch : List Bool) (i : Nat) (hi : i < ch.length)
    (hv : ch.getD i true = false) :
    (ch.set i true).count true = ch.count true + 1 := by
  induction ch generalizing i with
  | nil => simp at hi
  | cons c cs ih =>
    cases i with
    | zero =>
      simp only [List.getD_cons_zero] at hv
      subst hv
      simp [List.count_cons]
    | succ j =>
      simp only [List.getD_cons_succ] at hv
      simp only [List.length_cons] at hi
      have h2 := ih j (by omega) hv
      simp only [List.set, List.count_cons, h2]
      cases c <;> simp

theorem all_true_of_count_eq (ch : List Bool) (h : ch.count true = ch.length) :
    ∀ i, ch.getD i true = true := by
  intro i
  induction ch generalizing i with
  | nil => cases i <;> simp [List.getD]
  | cons c cs ih =>
    cases c with
    | false =>
      exfalso
      simp only [List.count_cons, List.length_cons] at h
      have := List.count_le_length true cs
      simp at h
      omega
    | true =>
      cases i with
      | zero => simp
      | succ j =>
        simp only [List.count_cons, List.length_cons] at h
        simp only [List.getD_cons_succ]
        exact ih (by simpa using h) j

theorem markBest_count_of_lt (rems : List Nat) (ch : List Bool)
    (h : ch.count true < ch.length) :
    (markBest rems ch).count true = ch.count true + 1 := by
  obtain ⟨i, hi, hv⟩ := exists_false_of_count_lt ch h
  have hmem : i ∈ unchosenIdxs ch := (mem_unchosenIdxs ch i).2 ⟨hi, hv⟩
  unfold markBest
  cases harg : argmaxRem rems (unchosenIdxs ch) with
  | none =>
    exfalso
    cases hl : unchosenIdxs ch with
    | nil => rw [hl] at hmem; simp at hmem
    | cons a rest => rw [hl] at harg; simp [argmaxRem] at harg
  | some m =>
    have hm : m ∈ unchosenIdxs ch := argmaxRem_mem rems _ m harg
    obtain ⟨hmlt, hmv⟩ := (mem_unchosenIdxs ch m).1 hm
    exact count_set_true ch m hmlt hmv

theorem markBest_of_full (rems : List Nat) (ch : List Bool)
    (h : ch.count true = ch.length) :
    markBest rems ch = ch := by
  have hempty : unchosenIdxs ch = [] := by
    cases hl : unchosenIdxs ch with
    | nil => rfl
    | cons a rest =>
      exfalso
      have : a ∈ unchosenIdxs ch := by rw [hl]; exact List.mem_cons_self a rest
      obtain ⟨_, hv⟩ := (mem_unchosenIdxs ch a).1 this
      have := all_true_of_count_eq ch h a
      rw [this] at hv
      simp at hv
  unfold markBest
  rw [hempty]
  rfl

theorem pickTopAux_count (rems : List Nat) (r : Nat) (ch : List Bool) :
    (pickTopAux rems r ch).count true = min (ch.count true + r) ch.length := by
  induction r generalizing ch with
  | zero =>
    simp only [pickTopAux]
    have := List.count_le_length true ch
    omega
  | succ n ih =>
    simp only [pickTopAux]
    rcases Nat.lt_or_ge (ch.count true) ch.length with h | h
    · rw [ih (markBest rems ch), markBest_count_of_lt rems ch h, markBest_length]
      omega
    · have heq : ch.count true = ch.length :=
        Nat.le_antisymm (List.count_le_length true ch) h
      rw [markBest_of_full rems ch heq, ih ch, heq]
      omega

theorem pickTop_count (rems : List Nat) (r : Nat) :
    (pickTop rems r).count true = min r rems.length := by
  simp [pickTop, pickTopAux_count, List.count_replicate]

/-! ## Arithmetic bounds for the floor allocation -/

theorem base_sum_mul_le (c w : Nat) (ws : List Nat) :
    w * ((ws.map (fun x => c * x / w)).sum) ≤ c * ws.sum := by
  induction ws with
  | nil => simp
  | cons x xs ih =>
    simp only [List.map_cons, List.sum_cons, Nat.mul_add, Nat.left_distrib]
    have h1 : w * (c * x / w) ≤ c * x := Nat.mul_div_le (c * x) w
    omega

theorem sum_le_base_add (c w : Nat) (ws : List Nat) (hw : 0 < w) :
    c * ws.sum ≤ w * ((ws.map (fun x => c * x / w)).sum) + ws.length * (w - 1) := by
  induction ws with
  | nil => simp
  | cons x xs ih =>
    simp only [List.map_cons, List.sum_cons, List.length_cons, Nat.left_distrib]
    have h1 : c * x = w * (c * x / w) + c * x % w := (Nat.div_add_mod (c * x) w).symm
    have h2 : c * x % w < w := Nat.mod_lt _ hw
    have h3 : (xs.length + 1) * (w - 1) = xs.length * (w - 1) + (w - 1) := by ring
    omega

/-- With a positive total weight the floor allocations never exceed the count
and undershoot it by fewer than the number of messages. -/
theorem base_bounds (c : Nat) (ws : List Nat) (hw : 0 < ws.sum) :
    (ws.map (fun x => c * x / ws.sum)).sum ≤ c ∧
      c < (ws.map (fun x => c * x / ws.sum)).sum + ws.length := by
  have hne : ws ≠ [] := by
    intro h
    rw [h] at hw
    simp at hw
  have hlen : 0 < ws.length := List.length_pos.2 hne
  have h1 := base_sum_mul_le c ws.sum ws
  have h2 := sum_le_base_add c ws.sum ws hw
  refine ⟨?_, ?_⟩
  · refine Nat.le_of_mul_le_mul_left ?_ hw
    calc ws.sum * (ws.map (fun x => c * x / ws.sum)).sum ≤ c * ws.sum := h1
      _ = ws.sum * c := Nat.mul_comm c ws.sum
  · by_contra hcon
    push_neg at hcon
    have h3 : ws.sum * ((ws.map (fun x => c * x / ws.sum)).sum + ws.length) ≤ ws.sum * c :=
      Nat.mul_le_mul (Nat.le_refl ws.sum) hcon
    obtain ⟨v, hv⟩ : ∃ v, ws.sum = v + 1 := ⟨ws.sum - 1, by omega⟩
    have h4 : ws.length * (ws.sum - 1) + ws.length = ws.length * ws.sum := by
      rw [hv]
      simp [Nat.mul_succ]
    have h7 : ws.sum * ((ws.map (fun x => c * x / ws.sum)).sum + ws.length) =
        ws.sum * (ws.map (fun x => c * x / ws.sum)).sum + ws.length * ws.sum := by ring
    have h8 : ws.sum * c = c * ws.sum := Nat.mul_comm ws.sum c
    omega

theorem largestRemainder_length (c : Nat) (ws : List Nat) :
    (largestRemainder c ws).length = ws.length := by
  simp [largestRemainder, addExtras_length]

theorem largestRemainder_sum (c : Nat) (ws : List Nat) (hw : 0 < ws.sum) :
    (largestRemainder c ws).sum = c := by
  unfold largestRemainder
  have hlen : (pickTop (ws.map (fun x => c * x % ws.sum))
      (c - (ws.map (fun x => c * x / ws.sum)).sum)).length =
      (ws.map (fun x => c * x / ws.sum)).length := by
    rw [pickTop_length]
    simp
  rw [addExtras_sum _ _ hlen, pickTop_count]
  obtain ⟨hle, hlt⟩ := base_bounds c ws hw
  simp only [List.length_map]
  omega

theorem largestRemainder_getD (c : Nat) (ws : List Nat) (i : Nat) :
    (largestRemainder c ws).getD i 0 = c * ws.getD i 0 / ws.sum ∨
      (largestRemainder c ws).getD i 0 = c * ws.getD i 0 / ws.sum + 1 := by
  unfold largestRemainder
  have hlen : (pickTop (ws.map (fun x => c * x % ws.sum))
      (c - (ws.map (fun x => c * x / ws.sum)).sum)).length =
      (ws.map (fun x => c * x / ws.sum)).length := by
    rw [pickTop_length]
    simp
  rw [addExtras_getD _ _ i hlen]
  have hbase : (ws.map (fun x => c * x / ws.sum)).getD i 0 = c * ws.getD i 0 / ws.sum := by
    rcases Nat.lt_or_ge i ws.length with h | h
    · simp [List.getD_eq_getElem?_getD, List.getElem?_map, List.getElem?_eq_getElem h]
    · simp [List.getD_eq_getElem?_getD, List.getElem?_map, List.getElem?_eq_none h]
  rw [hbase]
  by_cases hch : (i < (pickTop (ws.map fun x => c * x % ws.sum)
      (c - (List.map (fun x => c * x / ws.sum) ws).sum)).length ∧
      (pickTop (ws.map fun x => c * x % ws.sum)
        (c - (List.map (fun x => c * x / ws.sum) ws).sum)).getD i false)
  · right
    rw [if_pos hch]
  · left
    rw [if_neg hch]
    omega

theorem redistribute_length (c : Nat) (ws : List Nat) :
    (redistribute c ws).length = ws.length := by
  match ws with
  | [] => rfl
  | [w] => rfl
  | w1 :: w2 :: rest =>
    unfold redistribute
    by_cases h : (w1 :: w2 :: rest).sum = 0
    · rw [if_pos h, largestRemainder_length]
      simp
    · rw [if_neg h, largestRemainder_length]

/-- The redistribution is lossless: the allocations sum to the entry count. -/
theorem redistribute_sum (c : Nat) (ws : List Nat) (hne : ws ≠ []) :
    (redistribute c ws).sum = c := by
  match ws with
  | [] => exact absurd rfl hne
  | [w] => simp [redistribute]
  | w1 :: w2 :: rest =>
    unfold redistribute
    by_cases h : (w1 :: w2 :: rest).sum = 0
    · rw [if_pos h, largestRemainder_sum]
      rw [List.sum_replicate]
      simp
    · rw [if_neg h, largestRemainder_sum]
      omega

theorem replicate_sum_ones (n : Nat) : (List.replicate n (1 : Nat)).sum = n := by
  rw [List.sum_replicate]
  simp

theorem replicate_getD_one (n i : Nat) (h : i < n) :
    (List.replicate n (1 : Nat)).getD i 0 = 1 := by
  rw [List.getD_eq_getElem?_getD, List.getElem?_replicate]
  simp [h]

/-- Every redistribution allocation sits between the floor share and the floor
share plus one unit. -/
theorem redistribute_getD_bounds (c : Nat) (ws : List Nat) (i : Nat)
    (hi : i < ws.length) :
    (ws.sum ≠ 0 →
      c * ws.getD i 0 / ws.sum ≤ (redistribute c ws).getD i 0 ∧
        (redistribute c ws).getD i 0 ≤ c * ws.getD i 0 / ws.sum + 1) ∧
    (ws.sum = 0 →
      c / ws.length ≤ (redistribute c ws).getD i 0 ∧
        (redistribute c ws).getD i 0 ≤ c / ws.length + 1) := by
  match ws with
  | [] => simp at hi
  | [w] =>
    have hi0 : i = 0 := by simpa using hi
    subst hi0
    constructor
    · intro hz
      have hwpos : 0 < w := by
        simp only [List.sum_cons, List.sum_nil] at hz
        omega
      simp [redistribute, List.getD_cons_zero, Nat.mul_div_cancel _ hwpos]
    · intro hz
      simp [redistribute, List.getD_cons_zero, Nat.div_one]
  | w1 :: w2 :: rest =>
    constructor
    · intro hz
      have hpos : 0 < (w1 :: w2 :: rest).sum := Nat.pos_of_ne_zero hz
      have heq : redistribute c (w1 :: w2 :: rest) = largestRemainder c (w1 :: w2 :: rest) := by
        unfold redistribute
        rw [if_neg hz]
      rw [heq]
      rcases largestRemainder_getD c (w1 :: w2 :: rest) i with h | h <;> rw [h] <;> omega
    · intro hz
      have heq : redistribute c (w1 :: w2 :: rest) =
          largestRemainder c (List.replicate (w1 :: w2 :: rest).length 1) := by
        unfold redistribute
        rw [if_pos hz]
      rw [heq]
      have hrep := largestRemainder_getD c (List.replicate (w1 :: w2 :: rest).length 1) i
      rw [replicate_sum_ones, replicate_getD_one _ _ (by simpa using hi)] at hrep
      simp only [Nat.mul_one] at hrep
      rcases hrep with h | h <;> rw [h] <;> omega

/-! ## Scanner lemmas -/

theorem scanParts_append (h : Bool) (st : ScanSt) (l1 l2 : List ContentPart) :
    scanParts h st (l1 ++ l2) = scanParts h (scanParts h st l1) l2 := by
  induction l1 generalizing st with
  | nil => rfl
  | cons p ps ih => simp [scanParts, ih]

theorem stepPart_droppable (h : Bool) (st : ScanSt) (p : ContentPart)
    (hp : droppablePart p = true) : stepPart h st p = st := by
  cases p with
  | text t ids => simp [droppablePart] at hp
  | think t => rfl
  | error e => rfl
  | agentUpdate => rfl
  | other => rfl
  | toolCall tc =>
    cases tc with
    | none => rfl
    | some tc0 => simp [droppablePart] at hp

theorem scanParts_droppable (h : Bool) (st : ScanSt) (l : List ContentPart)
    (hl : l.all droppablePart = true) : scanParts h st l = st := by
  induction l generalizing st with
  | nil => rfl
  | cons p ps ih =>
    simp only [List.all_cons, Bool.and_eq_true] at hl
    simp [scanParts, stepPart_droppable h st p hl.1, ih st hl.2]

theorem stepPart_msgs_grow (h : Bool) (st : ScanSt) (p : ContentPart) :
    ∃ t, (stepPart h st p).msgs = st.msgs ++ t := by
  cases p with
  | text t ids =>
    cases ids with
    | some l => exact ⟨flushSeg h st.seg, rfl⟩
    | none =>
      cases hseg : st.seg with
      | narrative ts => exact ⟨[], by simp [stepPart, hseg]⟩
      | closed => exact ⟨[], by simp [stepPart, hseg]⟩
      | toolSeg c calls pending =>
        exact ⟨flushSeg h (.toolSeg c calls pending), by simp [stepPart, hseg]⟩
  | think t => exact ⟨[], by simp [stepPart]⟩
  | error e => exact ⟨[], by simp [stepPart]⟩
  | agentUpdate => exact ⟨[], by simp [stepPart]⟩
  | other => exact ⟨[], by simp [stepPart]⟩
  | toolCall tc =>
    cases tc with
    | none => exact ⟨[], by simp [stepPart]⟩
    | some tc0 =>
      by_cases hdeg : degenerate tc0
      · exact ⟨[], by simp [stepPart, hdeg]⟩
      · by_cases hacc : acceptedName st.tools tc0.name
        · cases hseg : st.seg with
          | toolSeg c calls pending => exact ⟨[], by simp [stepPart, hdeg, hacc, hseg]⟩
          | narrative ts =>
            refine ⟨flushNarrative h ts ++
              [OutputMessage.ai (.str "") [validOf tc0],
               OutputMessage.tool tc0.id tc0.name (outStr tc0)], ?_⟩
            simp [stepPart, hdeg, hacc, hseg]
          | closed =>
            refine ⟨[OutputMessage.ai (.str "") [validOf tc0],
               OutputMessage.tool tc0.id tc0.name (outStr tc0)], ?_⟩
            simp [stepPart, hdeg, hacc, hseg]
        · cases hseg : st.seg with
          | toolSeg c calls pending => exact ⟨[], by simp [stepPart, hdeg, hacc, hseg]⟩
          | narrative ts => exact ⟨[], by simp [stepPart, hdeg, hacc, hseg]⟩
          | closed => exact ⟨[], by simp [stepPart, hdeg, hacc, hseg]⟩

theorem scanParts_msgs_grow (h : Bool) (st : ScanSt) (l : List ContentPart) :
    ∃ t, (scanParts h st l).msgs = st.msgs ++ t := by
  induction l generalizing st with
  | nil => exact ⟨[], by simp [scanParts]⟩
  | cons p ps ih =>
    obtain ⟨t1, ht1⟩ := stepPart_msgs_grow h st p
    obtain ⟨t2, ht2⟩ := ih (stepPart h st p)
    exact ⟨t1 ++ t2, by simp [scanParts, ht2, ht1]⟩

/-! ## Tool Validity Tracker lemmas -/

theorem discover_mono (n : String) (S : ToolSet) (out : String)
    (h : memTS n S) : memTS n (discover S out) := by
  cases S with
  | none => exact h
  | some l =>
    simp only [memTS, acceptedName, discover] at h ⊢
    rw [List.elem_iff] at h ⊢
    exact List.mem_append_left _ h

theorem discover_adds (n : String) (S : ToolSet) (out : String)
    (h : n ∈ extractToolNames out) : memTS n (discover S out) := by
  cases S with
  | none => rfl
  | some l =>
    simp only [memTS, acceptedName, discover]
    rw [List.elem_iff]
    exact List.mem_append_right _ h

theorem stepPart_tools_mono (h : Bool) (st : ScanSt) (p : ContentPart)
    (n : String) (hn : memTS n st.tools) : memTS n (stepPart h st p).tools := by
  obtain ⟨msgs, seg, tools⟩ := st
  simp only at hn
  cases p with
  | text t ids =>
    cases ids with
    | some l => exact hn
    | none => cases seg <;> exact hn
  | think t => exact hn
  | error e => exact hn
  | agentUpdate => exact hn
  | other => exact hn
  | toolCall tc =>
    cases tc with
    | none => exact hn
    | some tc0 =>
      by_cases hdeg : degenerate tc0
      · simpa [stepPart, hdeg] using hn
      · by_cases hacc : acceptedName tools tc0.name
        · by_cases hts : tc0.name = "tool_search"
          · rw [hts] at hacc
            cases seg <;>
              simpa [stepPart, hdeg, hacc, hts] using
                discover_mono n tools (outStr tc0) hn
          · cases seg <;> simpa [stepPart, hdeg, hacc, hts] using hn
        · cases seg <;> simpa [stepPart, hdeg, hacc] using hn

theorem scanParts_tools_mono (h : Bool) (st : ScanSt) (l : List ContentPart)
    (n : String) (hn : memTS n st.tools) : memTS n (scanParts h st l).tools := by
  induction l generalizing st with
  | nil => exact hn
  | cons p ps ih => exact ih (stepPart h st p) (stepPart_tools_mono h st p n hn)

theorem processEntry_tools_mono (e : PayloadEntry) (S : ToolSet) (n : String)
    (hn : memTS n S) : memTS n (processEntry e S).2 := by
  cases e with
  | mk role content =>
    cases role with
    | assistant => exact scanParts_tools_mono _ _ _ n hn
    | user => exact hn
    | system => exact hn
    | tool => exact hn

theorem toolsAfter_mono (payload : List PayloadEntry) (S : ToolSet) (n : String)
    (hn : memTS n S) : memTS n (toolsAfter payload S) := by
  induction payload generalizing S with
  | nil => exact hn
  | cons e rest ih => exact ih (processEntry e S).2 (processEntry_tools_mono e S n hn)

theorem toolsAfter_append (p1 p2 : List PayloadEntry) (S : ToolSet) :
    toolsAfter (p1 ++ p2) S = toolsAfter p2 (toolsAfter p1 S) := by
  induction p1 generalizing S with
  | nil => rfl
  | cons e rest ih => simp [toolsAfter, ih]

/-- An accepted `tool_search` call immediately makes every discovered name a
member of the tracker. -/
theorem stepPart_discovery (h : Bool) (st : ScanSt) (tc : RawToolCall)
    (hdeg : degenerate tc = false)
    (hacc : acceptedName st.tools tc.name = true)
    (hts : tc.name = "tool_search")
    (n : String) (hn : n ∈ extractToolNames (outStr tc)) :
    memTS n (stepPart h st (.toolCall (some tc))).tools := by
  obtain ⟨msgs, seg, tools⟩ := st
  simp only at hacc
  rw [hts] at hacc
  cases seg <;>
    simpa [stepPart, hdeg, hacc, hts] using discover_adds n tools (outStr tc) hn

theorem goEngine_tools (m? : Option TokenMap) (payload : List PayloadEntry)
    (i pos : Nat) (S : ToolSet) :
    (goEngine m? payload i pos S).2.2 = toolsAfter payload S := by
  induction payload generalizing i pos S with
  | nil => rfl
  | cons e rest ih => simp [goEngine, toolsAfter, ih]

/-! ## Counting tool messages and assistant tool-call entries -/

theorem toolMsgCount_append (a b : List OutputMessage) :
    toolMsgCount (a ++ b) = toolMsgCount a + toolMsgCount b := by
  simp [toolMsgCount, List.filter_append]

theorem aiCallCount_append (a b : List OutputMessage) :
    aiCallCount (a ++ b) = aiCallCount a + aiCallCount b := by
  simp [aiCallCount]

theorem flushNarrative_toolMsgCount (h : Bool) (ts : List ContentPart) :
    toolMsgCount (flushNarrative h ts) = 0 := by
  cases ts with
  | nil => rfl
  | cons p ps =>
    unfold flushNarrative
    by_cases hh : h <;> simp [hh, toolMsgCount, isToolMsg]

theorem flushNarrative_aiCallCount (h : Bool) (ts : List ContentPart) :
    aiCallCount (flushNarrative h ts) = 0 := by
  cases ts with
  | nil => rfl
  | cons p ps =>
    unfold flushNarrative
    by_cases hh : h <;> simp [hh, aiCallCount, aiCalls]

theorem flushSeg_toolMsgCount (h : Bool) (seg : OpenSeg) :
    toolMsgCount (flushSeg h seg) = segToolCount seg := by
  cases seg with
  | closed => rfl
  | narrative ts => simp [flushSeg, segToolCount, flushNarrative_toolMsgCount]
  | toolSeg c calls pending =>
    simp [flushSeg, segToolCount, toolMsgCount, isToolMsg, List.filter_cons]

theorem flushSeg_aiCallCount (h : Bool) (seg : OpenSeg) :
    aiCallCount (flushSeg h seg) = segCallCount seg := by
  cases seg with
  | closed => rfl
  | narrative ts => simp [flushSeg, segCallCount, flushNarrative_aiCallCount]
  | toolSeg c calls pending =>
    simp [flushSeg, segCallCount, aiCallCount, aiCalls]

theorem stepPart_tools_none (h : Bool) (st : ScanSt) (p : ContentPart)
    (hS : st.tools = none) : (stepPart h st p).tools = none := by
  obtain ⟨msgs, seg, tools⟩ := st
  simp only at hS
  subst hS
  cases p with
  | text t ids => cases ids <;> cases seg <;> rfl
  | think t => rfl
  | error e => rfl
  | agentUpdate => rfl
  | other => rfl
  | toolCall tc =>
    cases tc with
    | none => rfl
    | some tc0 =>
      by_cases hdeg : degenerate tc0
      · simp [stepPart, hdeg]
      · by_cases hts : tc0.name = "tool_search" <;>
          cases seg <;> simp [stepPart, hdeg, hts, acceptedName, discover]

theorem toolMsgCount_nil : toolMsgCount [] = 0 := rfl

theorem toolMsgCount_tool_cons (a b c : String) (l : List OutputMessage) :
    toolMsgCount (OutputMessage.tool a b c :: l) = toolMsgCount l + 1 := by
  simp [toolMsgCount, List.filter_cons, isToolMsg]

theorem toolMsgCount_ai_cons (c : MsgContent) (tcs : List ValidToolCall)
    (l : List OutputMessage) :
    toolMsgCount (OutputMessage.ai c tcs :: l) = toolMsgCount l := by
  simp [toolMsgCount, List.filter_cons, isToolMsg]

theorem aiCallCount_nil : aiCallCount [] = 0 := rfl

theorem aiCallCount_tool_cons (a b c : String) (l : List OutputMessage) :
    aiCallCount (OutputMessage.tool a b c :: l) = aiCallCount l := by
  simp [aiCallCount, aiCalls]

theorem aiCallCount_ai_cons (c : MsgContent) (tcs : List ValidToolCall)
    (l : List OutputMessage) :
    aiCallCount (OutputMessage.ai c tcs :: l) = tcs.length + aiCallCount l := by
  simp [aiCallCount, aiCalls]

theorem segToolCount_toolSeg (c : String) (calls : List ValidToolCall)
    (pending : List OutputMessage) :
    segToolCount (.toolSeg c calls pending) = toolMsgCount pending := rfl

theorem segCallCount_toolSeg (c : String) (calls : List ValidToolCall)
    (pending : List OutputMessage) :
    segCallCount (.toolSeg c calls pending) = calls.length + aiCallCount pending := rfl

theorem stepPart_toolCount (h : Bool) (st : ScanSt) (p : ContentPart)
    (hS : st.tools = none) :
    toolMsgCount (stepPart h st p).msgs + segToolCount (stepPart h st p).seg =
      toolMsgCount st.msgs + segToolCount st.seg + partKept p := by
  obtain ⟨msgs, seg, tools⟩ := st
  simp only at hS
  subst hS
  cases p with
  | text t ids =>
    cases ids with
    | some l =>
      simp only [stepPart, toolMsgCount_append, flushSeg_toolMsgCount,
        segToolCount_toolSeg, toolMsgCount_nil, partKept, segToolCount]
    | none =>
      cases seg with
      | closed => simp [stepPart, partKept, segToolCount]
      | narrative ts => simp [stepPart, partKept, segToolCount]
      | toolSeg c calls pending =>
        simp only [stepPart, toolMsgCount_append, flushSeg_toolMsgCount,
          segToolCount_toolSeg, partKept, segToolCount]
  | think t => simp [stepPart, partKept]
  | error e => simp [stepPart, partKept]
  | agentUpdate => simp [stepPart, partKept]
  | other => simp [stepPart, partKept]
  | toolCall tc =>
    cases tc with
    | none => simp [stepPart, partKept]
    | some tc0 =>
      by_cases hdeg : degenerate tc0
      · simp [stepPart, hdeg, partKept]
      · have hacc : acceptedName none tc0.name = true := rfl
        cases seg with
        | toolSeg c calls pending =>
          simp only [stepPart, hdeg, hacc, if_false, if_true, Bool.false_eq_true,
            segToolCount_toolSeg, toolMsgCount_append, toolMsgCount_tool_cons,
            toolMsgCount_nil, partKept]
          omega
        | narrative ts =>
          simp only [stepPart, hdeg, hacc, if_false, if_true, Bool.false_eq_true,
            toolMsgCount_append, flushNarrative_toolMsgCount, toolMsgCount_ai_cons,
            toolMsgCount_tool_cons, toolMsgCount_nil, partKept, segToolCount]
        | closed =>
          simp only [stepPart, hdeg, hacc, if_false, if_true, Bool.false_eq_true,
            toolMsgCount_append, toolMsgCount_ai_cons, toolMsgCount_tool_cons,
            toolMsgCount_nil, partKept, segToolCount]

theorem stepPart_callCount (h : Bool) (st : ScanSt) (p : ContentPart)
    (hS : st.tools = none) :
    aiCallCount (stepPart h st p).msgs + segCallCount (stepPart h st p).seg =
      aiCallCount st.msgs + segCallCount st.seg + partKept p := by
  obtain ⟨msgs, seg, tools⟩ := st
  simp only at hS
  subst hS
  cases p with
  | text t ids =>
    cases ids with
    | some l =>
      simp only [stepPart, aiCallCount_append, flushSeg_aiCallCount,
        segCallCount_toolSeg, aiCallCount_nil, partKept, segCallCount, List.length_nil]
    | none =>
      cases seg with
      | closed => simp [stepPart, partKept, segCallCount]
      | narrative ts => simp [stepPart, partKept, segCallCount]
      | toolSeg c calls pending =>
        simp only [stepPart, aiCallCount_append, flushSeg_aiCallCount,
          segCallCount_toolSeg, partKept, segCallCount]
  | think t => simp [stepPart, partKept]
  | error e => simp [stepPart, partKept]
  | agentUpdate => simp [stepPart, partKept]
  | other => simp [stepPart, partKept]
  | toolCall tc =>
    cases tc with
    | none => simp [stepPart, partKept]
    | some tc0 =>
      by_cases hdeg : degenerate tc0
      · simp [stepPart, hdeg, partKept]
      · have hacc : acceptedName none tc0.name = true := rfl
        cases seg with
        | toolSeg c calls pending =>
          simp only [stepPart, hdeg, hacc, if_false, if_true, Bool.false_eq_true,
            segCallCount_toolSeg, aiCallCount_append, aiCallCount_tool_cons,
            aiCallCount_nil, List.length_append, List.length_cons, List.length_nil,
            partKept]
          omega
        | narrative ts =>
          simp only [stepPart, hdeg, hacc, if_false, if_true, Bool.false_eq_true,
            aiCallCount_append, flushNarrative_aiCallCount, aiCallCount_ai_cons,
            aiCallCount_tool_cons, aiCallCount_nil, List.length_cons,
            List.length_nil, partKept, segCallCount]
        | closed =>
          simp only [stepPart, hdeg, hacc, if_false, if_true, Bool.false_eq_true,
            aiCallCount_append, aiCallCount_ai_cons, aiCallCount_tool_cons,
            aiCallCount_nil, List.length_cons, List.length_nil, partKept,
            segCallCount]

theorem scanParts_counts (h : Bool) (st : ScanSt) (l : List ContentPart)
    (hS : st.tools = none) :
    toolMsgCount (scanParts h st l).msgs + segToolCount (scanParts h st l).seg =
        toolMsgCount st.msgs + segToolCount st.seg + keptCount l ∧
      aiCallCount (scanParts h st l).msgs + segCallCount (scanParts h st l).seg =
        aiCallCount st.msgs + segCallCount st.seg + keptCount l := by
  induction l generalizing st with
  | nil => simp [scanParts, keptCount]
  | cons p ps ih =>
    have hS2 := stepPart_tools_none h st p hS
    obtain ⟨ih1, ih2⟩ := ih (stepPart h st p) hS2
    have h1 := stepPart_toolCount h st p hS
    have h2 := stepPart_callCount h st p hS
    constructor
    · rw [scanParts, ih1, h1]
      simp [keptCount]
      omega
    · rw [scanParts, ih2, h2]
      simp [keptCount]
      omega

/-- With the unrestricted tracker, every kept raw tool call yields exactly one
tool-result message and one assistant tool-call entry. -/
theorem processAssistant_counts (parts : List ContentPart) :
    toolMsgCount (processAssistant parts none).1 = keptCount parts ∧
      aiCallCount (processAssistant parts none).1 = keptCount parts := by
  unfold processAssistant
  obtain ⟨h1, h2⟩ := scanParts_counts (parts.any isThinkPart)
    { msgs := [], seg := .closed, tools := none } parts rfl
  constructor
  · simp only [toolMsgCount_append, flushSeg_toolMsgCount]
    simpa [toolMsgCount, segToolCount] using h1
  · simp only [aiCallCount_append, flushSeg_aiCallCount]
    simpa [aiCallCount, segCallCount] using h2

/-! ## Narrative-only entries -/

theorem segOfAcc_append_cons (acc : List ContentPart) (p : ContentPart)
    (l : List ContentPart) : segOfAcc ((acc ++ [p]) ++ l) = .narrative ((acc ++ [p]) ++ l) := by
  cases acc <;> rfl

theorem scanParts_narr (h : Bool) (msgs : List OutputMessage) (S : ToolSet)
    (acc l : List ContentPart) (hl : l.all narrOnly = true) :
    scanParts h { msgs := msgs, seg := segOfAcc acc, tools := S } l =
      { msgs := msgs, seg := segOfAcc (acc ++ narrTexts l), tools := S } := by
  induction l generalizing acc with
  | nil => simp [scanParts, narrTexts]
  | cons p ps ih =>
    simp only [List.all_cons, Bool.and_eq_true] at hl
    obtain ⟨hp, hps⟩ := hl
    cases p with
    | text t ids =>
      cases ids with
      | some l2 => simp [narrOnly] at hp
      | none =>
        have hstep : stepPart h { msgs := msgs, seg := segOfAcc acc, tools := S }
            (.text t none) =
            { msgs := msgs, seg := segOfAcc (acc ++ [.text t none]), tools := S } := by
          cases acc with
          | nil => rfl
          | cons a as => rfl
        rw [scanParts, hstep, ih (acc ++ [ContentPart.text t none]) hps]
        simp [narrTexts]
    | think t2 =>
      rw [scanParts, stepPart_droppable h _ _ (by rfl), ih acc hps]
      simp [narrTexts]
    | error e2 =>
      rw [scanParts, stepPart_droppable h _ _ (by rfl), ih acc hps]
      simp [narrTexts]
    | agentUpdate =>
      rw [scanParts, stepPart_droppable h _ _ (by rfl), ih acc hps]
      simp [narrTexts]
    | other =>
      rw [scanParts, stepPart_droppable h _ _ (by rfl), ih acc hps]
      simp [narrTexts]
    | toolCall tc =>
      cases tc with
      | none =>
        rw [scanParts, stepPart_droppable h _ _ (by rfl), ih acc hps]
        simp [narrTexts]
      | some tc0 => simp [narrOnly] at hp

theorem flushSeg_segOfAcc (h : Bool) (ts : List ContentPart) :
    flushSeg h (segOfAcc ts) = flushNarrative h ts := by
  cases ts <;> rfl

/-! ## Pipeline lemmas for the token map -/

theorem zipFrom_snd_sum (pos : Nat) (l : List Nat) :
    ((zipFrom pos l).map Prod.snd).sum = l.sum := by
  induction l generalizing pos with
  | nil => rfl
  | cons a as ih => simp [zipFrom, ih]

theorem tokenEntriesFor_nil (m : TokenMap) (i pos : Nat) :
    tokenEntriesFor m i pos [] = [] := by
  unfold tokenEntriesFor
  cases lookupTok m i <;> rfl

theorem tokenEntriesFor_sum (m : TokenMap) (i pos : Nat)
    (msgs : List OutputMessage) (hne : msgs ≠ []) :
    outMapSum (tokenEntriesFor m i pos msgs) = valAt m i := by
  unfold tokenEntriesFor valAt
  cases hlk : lookupTok m i with
  | none => rfl
  | some v =>
    cases msgs with
    | nil => exact absurd rfl hne
    | cons mm ms =>
      have hsum := redistribute_sum (v.getD 0) ((mm :: ms).map msgWeight) (by simp)
      simp only [outMapSum, zipFrom_snd_sum, hsum]
      cases v <;> rfl

theorem goEngine_outSum (payload : List PayloadEntry) (m : TokenMap)
    (i pos : Nat) (S : ToolSet) :
    outMapSum (goEngine (some m) payload i pos S).2.1 =
      keptInputSum m i (prodFlags payload S) := by
  induction payload generalizing i pos S with
  | nil => rfl
  | cons e rest ih =>
    simp only [goEngine, prodFlags, keptInputSum]
    have happ : ∀ a b : List (Nat × Nat), outMapSum (a ++ b) = outMapSum a + outMapSum b := by
      intro a b
      simp [outMapSum]
    rw [happ, ih]
    cases hmsgs : (processEntry e S).1 with
    | nil => simp [tokenEntriesFor_nil, outMapSum]
    | cons mm ms =>
      rw [tokenEntriesFor_sum m i pos (mm :: ms) (by simp)]
      simp

theorem zipFrom_mem (pos : Nat) (l : List Nat) (kv : Nat × Nat)
    (h : kv ∈ zipFrom pos l) : pos ≤ kv.1 ∧ kv.1 < pos + l.length := by
  induction l generalizing pos with
  | nil => simp [zipFrom] at h
  | cons a as ih =>
    simp only [zipFrom, List.mem_cons] at h
    rcases h with h | h
    · subst h
      simp
    · have := ih (pos + 1) h
      simp only [List.length_cons]
      omega

theorem tokenEntriesFor_mem (m : TokenMap) (i pos : Nat)
    (msgs : List OutputMessage) (kv : Nat × Nat)
    (h : kv ∈ tokenEntriesFor m i pos msgs) :
    pos ≤ kv.1 ∧ kv.1 < pos + msgs.length := by
  unfold tokenEntriesFor at h
  cases hlk : lookupTok m i with
  | none => rw [hlk] at h; simp at h
  | some v =>
    rw [hlk] at h
    cases msgs with
    | nil => simp at h
    | cons mm ms =>
      have hz := zipFrom_mem pos _ kv h
      have hlen : (redistribute (v.getD 0) ((mm :: ms).map msgWeight)).length =
          (mm :: ms).length := by
        rw [redistribute_length]
        simp
      omega

theorem goEngine_toks_mem (m : TokenMap) (payload : List PayloadEntry)
    (i pos : Nat) (S : ToolSet) (kv : Nat × Nat)
    (h : kv ∈ (goEngine (some m) payload i pos S).2.1) :
    pos ≤ kv.1 ∧ kv.1 < pos + (goEngine (some m) payload i pos S).1.length := by
  induction payload generalizing i pos S with
  | nil => simp [goEngine] at h
  | cons e rest ih =>
    simp only [goEngine, List.mem_append, List.length_append] at h ⊢
    rcases h with h | h
    · have := tokenEntriesFor_mem m i pos (processEntry e S).1 kv h
      omega
    · have := ih (i + 1) (pos + (processEntry e S).1.length) (processEntry e S).2 h
      omega

/-! ## `convertMessagesToContent` step lemmas -/

theorem get?_append_lt {α : Type} (l1 l2 : List α) (k : Nat) (h : k < l1.length) :
    (l1 ++ l2).get? k = l1.get? k := by
  induction l1 generalizing k with
  | nil => simp at h
  | cons a as ih =>
    cases k with
    | zero => rfl
    | succ j =>
      simp only [List.length_cons] at h
      simpa using ih j (by omega)

theorem set_append_lt {α : Type} (l1 l2 : List α) (k : Nat) (x : α)
    (h : k < l1.length) : (l1 ++ l2).set k x = l1.set k x ++ l2 := by
  induction l1 generalizing k with
  | nil => simp at h
  | cons a as ih =>
    cases k with
    | zero => rfl
    | succ j =>
      simp only [List.length_cons] at h
      simp [List.set, ih j (by omega)]

theorem append_get?_self {α : Type} (l1 : List α) (x : α) (rest : List α) :
    (l1 ++ x :: rest).get? l1.length = some x := by
  induction l1 with
  | nil => rfl
  | cons a as ih => simpa using ih

theorem append_set_self {α : Type} (l1 : List α) (x y : α) (rest : List α) :
    (l1 ++ x :: rest).set l1.length y = l1 ++ y :: rest := by
  induction l1 with
  | nil => rfl
  | cons a as ih => simp [List.set, ih]

/-- A tool message arriving with no anchor: the empty text part is synthesized,
becomes the anchor, receives the id, and is followed by the `tool_call` part. -/
theorem convStep_tool_synth (st : ConvSt) (id content : String)
    (hid : id ≠ "") (hanchor : st.anchorIdx = none) :
    convStep st (.tool id content) =
      { out := st.out ++
          [⟨"text", "", some [id], none, none⟩, toolCallPart st.tcMap id content]
        anchorIdx := some st.out.length
        tcMap := st.tcMap } := by
  show ((fun st m => convStep st m) st (.tool id content)) = _
  simp only [convStep]
  rw [if_neg hid, hanchor]
  simp only [appendIdAt]
  have hassoc : (st.out ++ [(⟨"text", "", none, none, none⟩ : OPart)]) ++
      [toolCallPart st.tcMap id content] =
      st.out ++ (⟨"text", "", none, none, none⟩ : OPart) ::
        [toolCallPart st.tcMap id content] := by
    simp
  rw [hassoc, append_get?_self]
  simp [append_set_self]

/-- A tool message arriving with an anchor in range: the id is appended to the
anchor part and the `tool_call` part is pushed at the end. -/
theorem convStep_tool_anchor (st : ConvSt) (id content : String) (k : Nat)
    (p : OPart) (hid : id ≠ "") (hanchor : st.anchorIdx = some k)
    (hp : st.out.get? k = some p) :
    convStep st (.tool id content) =
      { out := st.out.set k { p with ids := some (p.ids.getD [] ++ [id]) } ++
          [toolCallPart st.tcMap id content]
        anchorIdx := some k
        tcMap := st.tcMap } := by
  have hk : k < st.out.length := by
    by_contra hcon
    push_neg at hcon
    rw [List.get?_eq_none.2 hcon] at hp
    simp at hp
  show ((fun st m => convStep st m) st (.tool id content)) = _
  simp only [convStep]
  rw [if_neg hid, hanchor]
  simp only [appendIdAt]
  rw [get?_append_lt _ _ k hk, hp]
  simp [set_append_lt _ _ k _ hk]

/-! ## Settling the claims -/

/-- C1 counterexample: an entry whose parts are all THINK/ERROR/AGENT_UPDATE is
filtered out entirely, and its 40 input tokens vanish from the output map, so
the claimed unconditional conservation `sum(output) = sum(input below
payload.length)` fails (matching the expectations of the repository tests at
formatAgentMessages.test.ts lines 1024-1049 and 1299-1345). -/
theorem claim_C1_counterexample :
    ¬ (outMapSum ((formatAgentMessages
        [⟨.assistant, .parts [.think "Thinking...", .error "Error occurred", .agentUpdate]⟩]
        (some [(0, some 40)]) none).indexTokenCountMap.getD []) =
      inputSumBelow [(0, some 40)] 1) := by
  decide

/-- C1 (amended): the sum of the output token map equals the sum of the input
map values at indices below the payload length restricted to the entries that
produce at least one output message (missing/undefined entries count as 0);
entries that are filtered out entirely drop their budget. -/
theorem claim_C1 (payload : List PayloadEntry) (m : TokenMap) (S : ToolSet) :
    outMapSum ((formatAgentMessages payload (some m) S).indexTokenCountMap.getD []) =
      keptInputSum m 0 (prodFlags payload S) :=
  goEngine_outSum payload m 0 0 S

/-- C2: for an entry expanded into the nonempty message list `msgs` with entry
count `c`, the redistribution produces one allocation per message, the
allocations sum exactly to `c`, a single message receives `c` unchanged, each
allocation is the floor share `c * weight / totalWeight` or that floor plus
one remainder unit, and when every weight is zero the same bounds hold for the
even split `c / K`. -/
theorem claim_C2 (c : Nat) (msgs : List OutputMessage) (hne : msgs ≠ []) :
    (redistribute c (msgs.map msgWeight)).length = msgs.length ∧
    (redistribute c (msgs.map msgWeight)).sum = c ∧
    (msgs.length = 1 → redistribute c (msgs.map msgWeight) = [c]) ∧
    (∀ i, i < msgs.length → (msgs.map msgWeight).sum ≠ 0 →
      c * (msgs.map msgWeight).getD i 0 / (msgs.map msgWeight).sum ≤
          (redistribute c (msgs.map msgWeight)).getD i 0 ∧
        (redistribute c (msgs.map msgWeight)).getD i 0 ≤
          c * (msgs.map msgWeight).getD i 0 / (msgs.map msgWeight).sum + 1) ∧
    (∀ i, i < msgs.length → (msgs.map msgWeight).sum = 0 →
      c / msgs.length ≤ (redistribute c (msgs.map msgWeight)).getD i 0 ∧
        (redistribute c (msgs.map msgWeight)).getD i 0 ≤ c / msgs.length + 1) := by
  have hwlen : (msgs.map msgWeight).length = msgs.length := List.length_map msgs msgWeight
  refine ⟨?_, ?_, ?_, ?_, ?_⟩
  · rw [redistribute_length, hwlen]
  · exact redistribute_sum c _ (by simpa using hne)
  · intro h1
    obtain ⟨mm, hmm⟩ := List.length_eq_one.1 h1
    subst hmm
    rfl
  · intro i hi hz
    exact (redistribute_getD_bounds c (msgs.map msgWeight) i (by omega)).1 hz
  · intro i hi hz
    have := (redistribute_getD_bounds c (msgs.map msgWeight) i (by omega)).2 hz
    rwa [hwlen] at this

/-- C2 witness: two tool-result messages with count 7. -/
theorem claim_C2_witness :
    ([OutputMessage.tool "t1" "a" "abc", OutputMessage.tool "t2" "b" "defgh"] ≠
        ([] : List OutputMessage)) ∧
    ((redistribute 7 ([OutputMessage.tool "t1" "a" "abc",
        OutputMessage.tool "t2" "b" "defgh"].map msgWeight)).sum = 7) :=
  ⟨List.cons_ne_nil _ _,
    (claim_C2 7 [OutputMessage.tool "t1" "a" "abc", OutputMessage.tool "t2" "b" "defgh"]
      (List.cons_ne_nil _ _)).2.1⟩

/-- C3: the tool-validity tracker only ever grows during a run (any name
accepted at some point stays accepted after any further entries, and after any
further parts inside an entry), tracker threading is compositional across the
payload, the engine threads exactly this tracker, and every name listed in the
parsed JSON output of an accepted `tool_search` call is accepted immediately
after the call is processed (hence, by monotonicity, in all subsequent
entries). -/
theorem claim_C3 :
    (∀ (payload : List PayloadEntry) (S : ToolSet) (n : String),
        memTS n S → memTS n (toolsAfter payload S)) ∧
    (∀ (p1 p2 : List PayloadEntry) (S : ToolSet),
        toolsAfter (p1 ++ p2) S = toolsAfter p2 (toolsAfter p1 S)) ∧
    (∀ (m? : Option TokenMap) (payload : List PayloadEntry) (i pos : Nat) (S : ToolSet),
        (goEngine m? payload i pos S).2.2 = toolsAfter payload S) ∧
    (∀ (h : Bool) (st : ScanSt) (l : List ContentPart) (n : String),
        memTS n st.tools → memTS n (scanParts h st l).tools) ∧
    (∀ (h : Bool) (st : ScanSt) (tc : RawToolCall),
        degenerate tc = false → acceptedName st.tools tc.name = true →
        tc.name = "tool_search" →
        ∀ n ∈ extractToolNames (outStr tc),
          memTS n (stepPart h st (.toolCall (some tc))).tools) :=
  ⟨toolsAfter_mono, toolsAfter_append, goEngine_tools,
    scanParts_tools_mono,
    fun h st tc hdeg hacc hts n hn => stepPart_discovery h st tc hdeg hacc hts n hn⟩

/-- C3 witness: a discovered name (from the tool-search output of the
repository test at lines 456-542) is accepted right after the call and remains
accepted after a further payload entry. -/
theorem claim_C3_witness :
    memTS "list_commits_mcp_github"
      (stepPart false
        { msgs := [], seg := .closed, tools := some ["tool_search"] }
        (.toolCall (some ⟨"ts_1", "tool_search", "\x7b\"query\":\"commits\"\x7d",
          some "\x7b\"found\": 1, \"tools\": [\x7b\"name\": \"list_commits_mcp_github\"\x7d]\x7d"⟩))).tools ∧
    memTS "tool_search"
      (toolsAfter [⟨.user, .str "hello"⟩] (some ["tool_search"])) :=
  ⟨claim_C3.2.2.2.2 false
      { msgs := [], seg := .closed, tools := some ["tool_search"] }
      ⟨"ts_1", "tool_search", "\x7b\"query\":\"commits\"\x7d",
        some "\x7b\"found\": 1, \"tools\": [\x7b\"name\": \"list_commits_mcp_github\"\x7d]\x7d"⟩
      (by decide) (by decide) rfl "list_commits_mcp_github" (by decide),
    claim_C3.1 [⟨.user, .str "hello"⟩] (some ["tool_search"]) "tool_search" rfl⟩

/-- C4: a kept, accepted tool call encountered with no open segment (after a
preamble of parts the scanner drops) is healed: the entry emits a synthesized
empty-content assistant message carrying the call, immediately followed by the
corresponding tool-result message, before any messages from later parts. -/
theorem claim_C4 (pre post : List ContentPart) (tc : RawToolCall) (S : ToolSet)
    (hpre : pre.all droppablePart = true)
    (hdeg : degenerate tc = false)
    (hacc : acceptedName S tc.name = true) :
    ∃ rest, (processAssistant (pre ++ .toolCall (some tc) :: post) S).1 =
      OutputMessage.ai (.str "") [validOf tc] ::
        OutputMessage.tool tc.id tc.name (outStr tc) :: rest := by
  have key : (processAssistant (pre ++ .toolCall (some tc) :: post) S).1 =
      (scanParts ((pre ++ ContentPart.toolCall (some tc) :: post).any isThinkPart)
          { msgs := [], seg := .closed, tools := S }
          (pre ++ ContentPart.toolCall (some tc) :: post)).msgs ++
        flushSeg ((pre ++ ContentPart.toolCall (some tc) :: post).any isThinkPart)
          (scanParts ((pre ++ ContentPart.toolCall (some tc) :: post).any isThinkPart)
            { msgs := [], seg := .closed, tools := S }
            (pre ++ ContentPart.toolCall (some tc) :: post)).seg := rfl
  rw [key, scanParts_append, scanParts_droppable _ _ pre hpre, scanParts]
  have hstep : stepPart ((pre ++ ContentPart.toolCall (some tc) :: post).any isThinkPart)
      { msgs := [], seg := .closed, tools := S } (.toolCall (some tc)) =
      { msgs := [OutputMessage.ai (.str "") [validOf tc],
          OutputMessage.tool tc.id tc.name (outStr tc)]
        seg := .closed
        tools := if tc.name = "tool_search" then discover S (outStr tc) else S } := by
    simp [stepPart, hdeg, hacc]
  rw [hstep]
  obtain ⟨t, ht⟩ := scanParts_msgs_grow
    ((pre ++ ContentPart.toolCall (some tc) :: post).any isThinkPart)
    { msgs := [OutputMessage.ai (.str "") [validOf tc],
        OutputMessage.tool tc.id tc.name (outStr tc)]
      seg := .closed
      tools := if tc.name = "tool_search" then discover S (outStr tc) else S } post
  refine ⟨t ++ flushSeg ((pre ++ ContentPart.toolCall (some tc) :: post).any isThinkPart)
    (scanParts ((pre ++ ContentPart.toolCall (some tc) :: post).any isThinkPart)
      { msgs := [OutputMessage.ai (.str "") [validOf tc],
          OutputMessage.tool tc.id tc.name (outStr tc)]
        seg := .closed
        tools := if tc.name = "tool_search" then discover S (outStr tc) else S } post).seg, ?_⟩
  rw [ht]
  simp

/-- C4 witness: a bare tool call after a THINK-only preamble (repository test
at lines 1237-1297) is healed into an assistant message with empty string
content followed by its tool-result message. -/
theorem claim_C4_witness :
    ([ContentPart.think "reasoning"].all droppablePart = true) ∧
    (degenerate ⟨"123", "search", "\x7b\"query\":\"weather\"\x7d", some "sunny"⟩ = false) ∧
    ∃ rest, (processAssistant
        ([ContentPart.think "reasoning"] ++
          ContentPart.toolCall (some ⟨"123", "search", "\x7b\"query\":\"weather\"\x7d",
            some "sunny"⟩) :: [ContentPart.text "done" none]) none).1 =
      OutputMessage.ai (.str "") [validOf ⟨"123", "search",
          "\x7b\"query\":\"weather\"\x7d", some "sunny"⟩] ::
        OutputMessage.tool "123" "search" "sunny" :: rest :=
  ⟨by decide, by decide,
    claim_C4 [ContentPart.think "reasoning"] [ContentPart.text "done" none]
      ⟨"123", "search", "\x7b\"query\":\"weather\"\x7d", some "sunny"⟩ none
      (by decide) (by decide) rfl⟩

/-- C5 counterexample: a kept call (name present, output present) under a
restricted tracker that does not list the name is rejected and inlined, so it
produces no tool-result message — the claim's unconditional "kept implies both
messages" fails (matching the repository test at lines 374-409). -/
theorem claim_C5_counterexample :
    degenerate ⟨"uk_1", "some_unknown_tool", "\x7b\x7d", some "result"⟩ = false ∧
    toolMsgCount (formatAgentMessages
      [⟨.assistant, .parts [.text "hi" (some ["uk_1"]),
        .toolCall (some ⟨"uk_1", "some_unknown_tool", "\x7b\x7d", some "result"⟩)]⟩]
      none (some ["calculator"])).messages = 0 :=
  ⟨by decide, by decide⟩

/-- C5 (amended): a raw tool call is skipped entirely (the entry behaves as if
the part were absent) iff its name and output are both falsy; any other
combination is kept, and — when the tracker is unrestricted, so no rejection
can interfere — every kept call produces exactly one assistant tool-call entry
and one tool-result message. -/
theorem claim_C5 :
    (∀ (S : ToolSet) (pre post : List ContentPart) (tc : RawToolCall),
        degenerate tc = true →
        processAssistant (pre ++ .toolCall (some tc) :: post) S =
          processAssistant (pre ++ post) S) ∧
    (∀ parts : List ContentPart,
        toolMsgCount (processAssistant parts none).1 = keptCount parts ∧
        aiCallCount (processAssistant parts none).1 = keptCount parts) := by
  constructor
  · intro S pre post tc hdeg
    have hthink : (pre ++ ContentPart.toolCall (some tc) :: post).any isThinkPart =
        (pre ++ post).any isThinkPart := by
      simp [List.any_append, isThinkPart]
    have key1 : processAssistant (pre ++ ContentPart.toolCall (some tc) :: post) S =
        ((scanParts ((pre ++ ContentPart.toolCall (some tc) :: post).any isThinkPart)
            { msgs := [], seg := .closed, tools := S }
            (pre ++ ContentPart.toolCall (some tc) :: post)).msgs ++
          flushSeg ((pre ++ ContentPart.toolCall (some tc) :: post).any isThinkPart)
            (scanParts ((pre ++ ContentPart.toolCall (some tc) :: post).any isThinkPart)
              { msgs := [], seg := .closed, tools := S }
              (pre ++ ContentPart.toolCall (some tc) :: post)).seg,
          (scanParts ((pre ++ ContentPart.toolCall (some tc) :: post).any isThinkPart)
            { msgs := [], seg := .closed, tools := S }
            (pre ++ ContentPart.toolCall (some tc) :: post)).tools) := rfl
    have key2 : processAssistant (pre ++ post) S =
        ((scanParts ((pre ++ post).any isThinkPart)
            { msgs := [], seg := .closed, tools := S } (pre ++ post)).msgs ++
          flushSeg ((pre ++ post).any isThinkPart)
            (scanParts ((pre ++ post).any isThinkPart)
              { msgs := [], seg := .closed, tools := S } (pre ++ post)).seg,
          (scanParts ((pre ++ post).any isThinkPart)
            { msgs := [], seg := .closed, tools := S } (pre ++ post)).tools) := rfl
    rw [key1, key2, hthink, scanParts_append, scanParts_append, scanParts]
    have hstep : stepPart ((pre ++ post).any isThinkPart)
        (scanParts ((pre ++ post).any isThinkPart)
          { msgs := [], seg := .closed, tools := S } pre) (.toolCall (some tc)) =
        scanParts ((pre ++ post).any isThinkPart)
          { msgs := [], seg := .closed, tools := S } pre := by
      simp [stepPart, hdeg]
    rw [hstep]
  · exact processAssistant_counts

/-- C5 witness: a degenerate call vanishes, and under the unrestricted tracker
a call with empty name but non-empty output still yields its tool-result
message and assistant tool-call entry. -/
theorem claim_C5_witness :
    (degenerate ⟨"d1", "", "\x7b\x7d", some ""⟩ = true) ∧
    (processAssistant ([ContentPart.text "a" none] ++
        ContentPart.toolCall (some ⟨"d1", "", "\x7b\x7d", some ""⟩) ::
          [ContentPart.text "b" none]) none =
      processAssistant ([ContentPart.text "a" none] ++ [ContentPart.text "b" none]) none) ∧
    (toolMsgCount (processAssistant
        [ContentPart.toolCall (some ⟨"t1", "", "\x7b\x7d", some "Valid output"⟩)] none).1 =
      keptCount [ContentPart.toolCall (some ⟨"t1", "", "\x7b\x7d", some "Valid output"⟩)]) :=
  ⟨by decide,
    claim_C5.1 none [ContentPart.text "a" none] [ContentPart.text "b" none]
      ⟨"d1", "", "\x7b\x7d", some ""⟩ (by decide),
    (claim_C5.2 [ContentPart.toolCall (some ⟨"t1", "", "\x7b\x7d", some "Valid output"⟩)]).1⟩

/-- C6: an entry made only of narrative parts (untagged TEXT plus dropped
kinds, no tool calls) emits nothing when no TEXT survives; otherwise it emits
exactly one assistant message whose content is the newline-join of the
surviving texts (skipping empty strings) when the original entry contained a
THINK part, and the literal list of the surviving TEXT parts when it did
not. -/
theorem claim_C6 (parts : List ContentPart) (S : ToolSet)
    (hnarr : parts.all narrOnly = true) :
    ((processAssistant parts S).1 =
      (match narrTexts parts with
       | [] => []
       | t :: ts =>
         if parts.any isThinkPart then
           [OutputMessage.ai (.str (joinTexts (t :: ts))) []]
         else
           [OutputMessage.ai (.parts (t :: ts)) []])) ∧
    (processAssistant parts S).2 = S := by
  have key := scanParts_narr (parts.any isThinkPart) [] S [] parts hnarr
  have key2 : (processAssistant parts S) =
      ((scanParts (parts.any isThinkPart)
          { msgs := [], seg := segOfAcc [], tools := S } parts).msgs ++
        flushSeg (parts.any isThinkPart)
          (scanParts (parts.any isThinkPart)
            { msgs := [], seg := segOfAcc [], tools := S } parts).seg,
        (scanParts (parts.any isThinkPart)
          { msgs := [], seg := segOfAcc [], tools := S } parts).tools) := rfl
  rw [key2, key]
  simp only [List.nil_append, flushSeg_segOfAcc]
  constructor
  · cases htx : narrTexts parts with
    | nil => rfl
    | cons t ts =>
      unfold flushNarrative
      rfl
  · trivial

/-- C6 witness: the two contrasted entries of the claim — a THINK between two
texts collapses to the string "a\nb", an ERROR between two texts keeps the
literal list form. -/
theorem claim_C6_witness :
    ((processAssistant [ContentPart.text "a" none, .think "x", .text "b" none] none).1 =
      [OutputMessage.ai (.str "a\nb") []]) ∧
    ((processAssistant [ContentPart.text "a" none, .error "x", .text "b" none] none).1 =
      [OutputMessage.ai (.parts [.text "a" none, .text "b" none]) []]) := by
  constructor
  · rw [(claim_C6 [ContentPart.text "a" none, .think "x", .text "b" none] none (by decide)).1]
    rfl
  · rw [(claim_C6 [ContentPart.text "a" none, .error "x", .text "b" none] none (by decide)).1]
    rfl

/-- C7: a kept tool call with a non-empty name that the (necessarily
restricted) tracker rejects leaves the emitted messages, the assistant
tool-call list and the pending tool-result messages untouched; only the
enclosing assistant segment content is extended with the serialized name and
output, so the flushed assistant message carries the information inline. -/
theorem claim_C7 (h : Bool) (msgs : List OutputMessage) (c : String)
    (calls : List ValidToolCall) (pending : List OutputMessage) (S : ToolSet)
    (tc : RawToolCall) (hname : tc.name ≠ "")
    (hrej : acceptedName S tc.name = false) :
    (stepPart h { msgs := msgs, seg := .toolSeg c calls pending, tools := S }
        (.toolCall (some tc)) =
      { msgs := msgs, seg := .toolSeg (c ++ inlineRejected tc) calls pending, tools := S }) ∧
    (flushSeg h (.toolSeg (c ++ inlineRejected tc) calls pending) =
      OutputMessage.ai (.str (c ++ inlineRejected tc)) calls :: pending) ∧
    inlineRejected tc = "\n" ++ tc.name ++ ": " ++ outStr tc := by
  have hdeg : degenerate tc = false := by
    unfold degenerate
    simp [hname]
  refine ⟨?_, rfl, rfl⟩
  simp [stepPart, hdeg, hrej]

/-- C7 witness: the unknown-tool rejection of the repository test at lines
544-603. -/
theorem claim_C7_witness :
    (("some_unknown_tool" : String) ≠ "") ∧
    (acceptedName (some ["calculator"]) "some_unknown_tool" = false) ∧
    (stepPart false
        { msgs := [], seg := .toolSeg "I will use two tools." [] [],
          tools := some ["calculator"] }
        (.toolCall (some ⟨"unknown_1", "some_unknown_tool", "\x7b\x7d",
          some "This is the result from unknown tool"⟩)) =
      { msgs := [],
        seg := .toolSeg ("I will use two tools." ++
          inlineRejected ⟨"unknown_1", "some_unknown_tool", "\x7b\x7d",
            some "This is the result from unknown tool"⟩) [] [],
        tools := some ["calculator"] }) :=
  ⟨by decide, by decide,
    (claim_C7 false [] "I will use two tools." [] [] (some ["calculator"])
      ⟨"unknown_1", "some_unknown_tool", "\x7b\x7d",
        some "This is the result from unknown tool"⟩ (by decide) (by decide)).1⟩

/-- C8: an entry whose parts are all THINK, ERROR or AGENT_UPDATE produces no
output messages, leaves the tracker unchanged, and contributes no entries to
the output token map regardless of the input map value at its index. -/
theorem claim_C8 (role : Role) (parts : List ContentPart) (S : ToolSet)
    (hdrop : parts.all droppableC8 = true) :
    (processEntry ⟨role, .parts parts⟩ S).1 = [] ∧
    (processEntry ⟨role, .parts parts⟩ S).2 = S ∧
    (∀ (m : TokenMap) (i pos : Nat),
      tokenEntriesFor m i pos (processEntry ⟨role, .parts parts⟩ S).1 = []) := by
  have hall : parts.all droppablePart = true := by
    rw [List.all_eq_true] at hdrop ⊢
    intro p hp
    have h1 := hdrop p hp
    cases p <;> simp [droppableC8, droppablePart] at h1 ⊢
  have hsurv : survivingTexts parts = [] := by
    rw [List.all_eq_true] at hdrop
    unfold survivingTexts
    rw [List.filter_eq_nil_iff]
    intro p hp
    have h1 := hdrop p hp
    cases p <;> simp [droppableC8] at h1 ⊢
  have hmain : (processEntry ⟨role, .parts parts⟩ S).1 = [] ∧
      (processEntry ⟨role, .parts parts⟩ S).2 = S := by
    cases role with
    | assistant =>
      have key : processEntry ⟨.assistant, .parts parts⟩ S =
          ((scanParts (parts.any isThinkPart)
              { msgs := [], seg := .closed, tools := S } parts).msgs ++
            flushSeg (parts.any isThinkPart)
              (scanParts (parts.any isThinkPart)
                { msgs := [], seg := .closed, tools := S } parts).seg,
            (scanParts (parts.any isThinkPart)
              { msgs := [], seg := .closed, tools := S } parts).tools) := rfl
      rw [key, scanParts_droppable _ _ parts hall]
      exact ⟨rfl, rfl⟩
    | user =>
      have key : processEntry ⟨.user, .parts parts⟩ S =
          (processPlain OutputMessage.human parts, S) := rfl
      rw [key]
      unfold processPlain
      rw [hsurv]
      exact ⟨rfl, rfl⟩
    | system =>
      have key : processEntry ⟨.system, .parts parts⟩ S =
          (processPlain OutputMessage.system parts, S) := rfl
      rw [key]
      unfold processPlain
      rw [hsurv]
      exact ⟨rfl, rfl⟩
    | tool =>
      have key : processEntry ⟨.tool, .parts parts⟩ S =
          (processPlain OutputMessage.human parts, S) := rfl
      rw [key]
      unfold processPlain
      rw [hsurv]
      exact ⟨rfl, rfl⟩
  refine ⟨hmain.1, hmain.2, ?_⟩
  intro m i pos
  rw [hmain.1]
  exact tokenEntriesFor_nil m i pos

/-- C8 witness: the fully filtered entry of the repository test at lines
1024-1049, with a 40-token budget contributing nothing. -/
theorem claim_C8_witness :
    ([ContentPart.think "Thinking...", .error "Error occurred",
        ContentPart.agentUpdate].all droppableC8 = true) ∧
    ((processEntry ⟨.assistant, .parts [ContentPart.think "Thinking...",
        .error "Error occurred", ContentPart.agentUpdate]⟩ none).1 = []) ∧
    (tokenEntriesFor [(0, some 40)] 0 0
      (processEntry ⟨.assistant, .parts [ContentPart.think "Thinking...",
        .error "Error occurred", ContentPart.agentUpdate]⟩ none).1 = []) :=
  ⟨by decide,
    (claim_C8 .assistant [ContentPart.think "Thinking...", .error "Error occurred",
      ContentPart.agentUpdate] none (by decide)).1,
    (claim_C8 .assistant [ContentPart.think "Thinking...", .error "Error occurred",
      ContentPart.agentUpdate] none (by decide)).2.2 [(0, some 40)] 0 0⟩

/-- C9: the engine is a total function — it returns a well-formed result for
every input shape (malformed tool-call parts, null/unrecognized slots, sparse
maps, undefined values, out-of-range indices are all representable): the
result map is present iff an input map was supplied, and every key of the
result map addresses an existing output message. -/
theorem claim_C9 (payload : List PayloadEntry) (m? : Option TokenMap) (S : ToolSet) :
    ((formatAgentMessages payload m? S).indexTokenCountMap.isSome = m?.isSome) ∧
    (∀ kv ∈ (formatAgentMessages payload m? S).indexTokenCountMap.getD [],
      kv.1 < (formatAgentMessages payload m? S).messages.length) := by
  cases m? with
  | none => exact ⟨rfl, by intro kv hkv; simp [formatAgentMessages] at hkv⟩
  | some m =>
    refine ⟨rfl, ?_⟩
    intro kv hkv
    have hmem : kv ∈ (goEngine (some m) payload 0 0 S).2.1 := hkv
    have := goEngine_toks_mem m payload 0 0 S kv hmem
    have hmsgs : (formatAgentMessages payload (some m) S).messages =
        (goEngine (some m) payload 0 0 S).1 := rfl
    rw [hmsgs]
    omega

/-- C9 witness: a malformed payload (missing tool_call field, null slot,
unrecognized part, sparse map with an out-of-range index) still yields a
present, in-range token map. -/
theorem claim_C9_witness :
    ((formatAgentMessages
        [⟨.assistant, .parts [.text "hello" none, .other, .toolCall none]⟩]
        (some [(0, some 25), (99, some 999)]) none).indexTokenCountMap.isSome =
      (some [((0 : Nat), some (25 : Nat)), (99, some 999)]).isSome) ∧
    ((0 : Nat) < (formatAgentMessages
        [⟨.assistant, .parts [.text "hello" none, .other, .toolCall none]⟩]
        (some [(0, some 25), (99, some 999)]) none).messages.length) :=
  ⟨(claim_C9 [⟨.assistant, .parts [.text "hello" none, .other, .toolCall none]⟩]
      (some [(0, some 25), (99, some 999)]) none).1,
    (claim_C9 [⟨.assistant, .parts [.text "hello" none, .other, .toolCall none]⟩]
      (some [(0, some 25), (99, some 999)]) none).2 (0, 25) (by decide)⟩

/-- C10: in `convertMessagesToContent`, a tool message with a (truthy)
`tool_call_id` appends its id to the `tool_call_ids` of the current anchor
content part right after pushing its `tool_call` part; when no anchor exists
an empty text part `{type: text, text: ""}` is synthesized first and becomes
the anchor carrying the id. -/
theorem claim_C10 :
    (∀ (st : ConvSt) (id content : String), id ≠ "" → st.anchorIdx = none →
      convStep st (.tool id content) =
        { out := st.out ++
            [⟨"text", "", some [id], none, none⟩, toolCallPart st.tcMap id content]
          anchorIdx := some st.out.length
          tcMap := st.tcMap }) ∧
    (∀ (st : ConvSt) (id content : String) (k : Nat) (p : OPart),
      id ≠ "" → st.anchorIdx = some k → st.out.get? k = some p →
      convStep st (.tool id content) =
        { out := st.out.set k { p with ids := some (p.ids.getD [] ++ [id]) } ++
            [toolCallPart st.tcMap id content]
          anchorIdx := some k
          tcMap := st.tcMap }) :=
  ⟨convStep_tool_synth, convStep_tool_anchor⟩

/-- C10 witness: a tool message arriving first synthesizes the empty text
anchor; one arriving after an anchored AI content part appends to that
part. -/
theorem claim_C10_witness :
    (convStep { out := [], anchorIdx := none, tcMap := [] } (.tool "t1" "result") =
      { out := [⟨"text", "", some ["t1"], none, none⟩, toolCallPart [] "t1" "result"]
        anchorIdx := some 0
        tcMap := [] }) ∧
    (convStep
        { out := [⟨"text", "hello", none, none, none⟩]
          anchorIdx := some 0
          tcMap := [] } (.tool "t2" "out2") =
      { out := [⟨"text", "hello", some ["t2"], none, none⟩,
          toolCallPart [] "t2" "out2"]
        anchorIdx := some 0
        tcMap := [] }) :=
  ⟨claim_C10.1 { out := [], anchorIdx := none, tcMap := [] } "t1" "result"
      (by decide) rfl,
    claim_C10.2
      { out := [⟨"text", "hello", none, none, none⟩]
        anchorIdx := some 0
        tcMap := [] } "t2" "out2" 0 ⟨"text", "hello", none, none, none⟩
      (by decide) rfl rfl⟩
